import Mathlib

/-!
Verification of the CSS change application engine (`src/css-editor.ts`) and the
session state coordinator (websocket module) of the visual-inspector-mcp
repository, as a shallow embedding in Lean 4.

Strings are modelled as `String` / `List Char`.  JavaScript regular-expression
scans are modelled by explicit recursive scanners with the same leftmost,
non-overlapping, greedy semantics as the concrete regexes in the source.
The filesystem is modelled as an association list from paths to contents, and
the write effects of each operation are returned explicitly as a list of
(path, content) pairs.  `path.resolve` (relative to a fixed working directory)
is modelled as the identity on the already-resolved path strings used here;
none of the verified claims depend on path canonicalization.
-/

namespace VisualInspector

/-- The whitespace class of the JavaScript `\s` regex class and `trim`
(ASCII part: space, tab, newline, carriage return, vertical tab, form feed). -/
def isWs (c : Char) : Bool :=
  c = ' ' || c = '\t' || c = '\n' || c = '\r' || c = '\x0b' || c = '\x0c'

/-- `String.prototype.trim`: drop leading and trailing whitespace. -/
def jsTrim (l : List Char) : List Char :=
  ((l.dropWhile isWs).reverse.dropWhile isWs).reverse

/-- Worker for `collapseWs`; the flag records whether the previous character
was whitespace (in which case further whitespace is dropped). -/
def collapseWsAux : Bool → List Char → List Char
  | _, [] => []
  | prevWs, c :: cs =>
    if isWs c then
      if prevWs then collapseWsAux true cs
      else ' ' :: collapseWsAux true cs
    else c :: collapseWsAux false cs

/-- `.replace(/\s+/g, ' ')`: every maximal whitespace run becomes one space. -/
def collapseWs (l : List Char) : List Char := collapseWsAux false l

/-- Attempt to match the regex `\s*SEP\s*` at the head of `l` (`SEP` a fixed
separator character); on success return the rest of the input after the
match.  The greedy `\s*` runs are deterministic here because a whitespace
character can never satisfy the `SEP` position. -/
def trySep (sep : Char) (l : List Char) : Option (List Char) :=
  match l.dropWhile isWs with
  | c :: r => if c = sep then some (r.dropWhile isWs) else none
  | [] => none

/-- Fuel-driven worker for `sepRepl`; the fuel is always at least the input
length, so the zero-fuel branch is never reached (each step consumes at
least one character). -/
def sepReplAux (sep : Char) (rep : List Char) : Nat → List Char → List Char
  | 0, _ => []
  | _ + 1, [] => []
  | fuel + 1, c :: cs =>
    match trySep sep (c :: cs) with
    | some rest => rep ++ sepReplAux sep rep fuel rest
    | none => c :: sepReplAux sep rep fuel cs

/-- Global replacement `.replace(/\s*SEP\s*/g, rep)` as performed by
`String.prototype.replace` with a global regex: scan left to right, at each
position attempt the match; on success emit the replacement (which is never
rescanned) and continue after the match, otherwise copy one character. -/
def sepRepl (sep : Char) (rep : List Char) (l : List Char) : List Char :=
  sepReplAux sep rep l.length l

/-- `normalizeSelector` on character lists: trim, collapse whitespace runs,
normalize spacing around the child combinator `>` to one space each side,
normalize spacing around `,` to `, ` — exactly the four chained
`.trim()/.replace(...)` calls of the source. -/
def normalizeSelectorL (l : List Char) : List Char :=
  sepRepl ',' [',', ' '] (sepRepl '>' [' ', '>', ' '] (collapseWs (jsTrim l)))

/-- `normalizeSelector` from `css-editor.ts`. -/
def normalizeSelector (s : String) : String :=
  String.mk (normalizeSelectorL s.data)

/-- `CssChange` from `css-editor.ts`: a single declaration intent. -/
structure CssChange where
  selector : String
  property : String
  value : String
deriving Repr, DecidableEq

/-- A CSS declaration (`property: value`) of the parsed rule tree. -/
structure Decl where
  property : String
  value : String
deriving Repr, DecidableEq

/-- A CSS rule: selector prelude text plus its declaration block. -/
structure Rule where
  prelude : String
  decls : List Decl
deriving Repr, DecidableEq

/-- Declaration-list parser for the interior of a rule block; consumes up to
and including the closing brace and returns the remaining input.  Fuel-driven
(the fuel is always sufficient: at least one character is consumed per step). -/
def parseDeclsAux : Nat → List Char → List Decl → Option (List Decl × List Char)
  | 0, _, _ => none
  | fuel + 1, l, acc =>
    let l1 := l.dropWhile isWs
    match l1 with
    | [] => none
    | '\x7d' :: r => some (acc.reverse, r)
    | ';' :: r => parseDeclsAux fuel r acc
    | _ =>
      let isPropChar := fun c => c ≠ ':' && c ≠ ';' && c ≠ '\x7d' && c ≠ '\x7b'
      let prop := l1.takeWhile isPropChar
      match l1.dropWhile isPropChar with
      | ':' :: r2 =>
        let isValChar := fun c => c ≠ ';' && c ≠ '\x7d' && c ≠ '\x7b'
        let val := r2.takeWhile isValChar
        let p := jsTrim prop
        let v := jsTrim val
        if p = [] || v = [] then none
        else
          match r2.dropWhile isValChar with
          | ';' :: r4 => parseDeclsAux fuel r4 (⟨String.mk p, String.mk v⟩ :: acc)
          | '\x7d' :: r4 => some ((⟨String.mk p, String.mk v⟩ :: acc).reverse, r4)
          | _ => none
      | _ => none

/-- Top-level rule parser: a sequence of `selector { declarations }` rules.
Models `csstree.parse` on the fragment language the editor manipulates
(plain rules with declaration blocks; at-rules, comments and nested blocks
are outside the modelled language and count as parse failures, which the
source recovers from via the regex fallback). -/
def parseRulesAux : Nat → List Char → List Rule → Option (List Rule)
  | 0, _, _ => none
  | fuel + 1, l, acc =>
    let l1 := l.dropWhile isWs
    match l1 with
    | [] => some acc.reverse
    | _ =>
      let isSelChar := fun c => c ≠ '\x7b' && c ≠ '\x7d' && c ≠ ';'
      let sel := l1.takeWhile isSelChar
      match l1.dropWhile isSelChar with
      | '\x7b' :: r2 =>
        let s := jsTrim sel
        if s = [] then none
        else
          match parseDeclsAux (r2.length + 1) r2 [] with
          | some (ds, r3) => parseRulesAux fuel r3 (⟨String.mk s, ds⟩ :: acc)
          | none => none
      | _ => none

/-- `csstree.parse` as used by `modifyCssContent` / `extractStylesFromCss`:
`none` models the thrown parse error. -/
def cssParse (css : String) : Option (List Rule) :=
  parseRulesAux (css.data.length + 1) css.data []

/-- `csstree.generate` on the modelled rule tree: minified re-serialization
(`sel{p:v;q:w}`).  The prelude is emitted as stored; selector comparison in
the engine happens only through `normalizeSelector`, for which the stored
trimmed selector text and csstree's regenerated text are interchangeable on
the modelled fragment language. -/
def cssGenerate (rules : List Rule) : String :=
  String.join (rules.map (fun r =>
    r.prelude ++ ("\x7b") ++
      String.intercalate (";") (r.decls.map (fun d => d.property ++ (":") ++ d.value)) ++
      ("\x7d")))

/-- The inner `csstree.walk(block, visit Declaration)` of `modifyCssContent`:
replace the value of every declaration whose property equals the change's
property; the boolean is the source's `propertyFound` flag. -/
def applyToDecls (ch : CssChange) : List Decl → List Decl × Bool
  | [] => ([], false)
  | d :: ds =>
    let t := applyToDecls ch ds
    if d.property = ch.property then (⟨d.property, ch.value⟩ :: t.1, true)
    else (d :: t.1, t.2)

/-- The outer `csstree.walk(ast, visit Rule)` of `modifyCssContent`: for every
rule whose canonicalized prelude equals the canonicalized change selector,
update the existing declarations or append a new one; the boolean is the
source's `modified` flag. -/
def modifyStylesheet (ch : CssChange) : List Rule → List Rule × Bool
  | [] => ([], false)
  | r :: rs =>
    let t := modifyStylesheet ch rs
    if normalizeSelector r.prelude = normalizeSelector ch.selector then
      let d := applyToDecls ch r.decls
      let newDecls := if d.2 then d.1 else d.1 ++ [⟨ch.property, ch.value⟩]
      (⟨r.prelude, newDecls⟩ :: t.1, true)
    else (r :: t.1, t.2)

/-- Result type of `modifyCssContent` / `applyWithRegex`. -/
structure ModResult where
  modified : Bool
  content : String
deriving Repr, DecidableEq

/-- Case-insensitive character comparison (the `i` regex flag). -/
def lowerEq (a b : Char) : Bool := a.toLower = b.toLower

/-- Case-insensitive literal match of `pat` at the head of `l`; returns the
matched input slice (with the input's original casing) and the rest. -/
def splitCI : List Char → List Char → Option (List Char × List Char)
  | [], l => some ([], l)
  | _ :: _, [] => none
  | p :: ps, c :: cs =>
    if lowerEq p c then
      match splitCI ps cs with
      | some (a, r) => some (c :: a, r)
      | none => none
    else none

/-- Attempt the fallback regex `(SEL\s*\{[^}]*)\}` (flags `gi`) at the head of
`l`: the regex-escaped selector matches the selector text literally (and,
with the `i` flag, case-insensitively), then optional whitespace, `{`, a
maximal run of non-`}` characters, and the closing `}`.  Returns the captured
group (everything before the closing brace, as it occurs in the input) and
the rest of the input after the match. -/
def tryBlock (sel : List Char) (l : List Char) : Option (List Char × List Char) :=
  match splitCI sel l with
  | none => none
  | some (selIn, r1) =>
    let wsRun := r1.takeWhile isWs
    match r1.dropWhile isWs with
    | '\x7b' :: r3 =>
      let body := r3.takeWhile (fun c => c ≠ '\x7d')
      match r3.dropWhile (fun c => c ≠ '\x7d') with
      | '\x7d' :: r5 => some (selIn ++ wsRun ++ '\x7b' :: body, r5)
      | _ => none
    | _ => none

/-- Attempt the inner fallback regex `PROP\s*:[^;]+;?` (flags `gi`) at the
head of `l`; returns the rest of the input after the match.  The property
text is matched literally (the source does not escape it; CSS property names
contain no regex metacharacters). -/
def tryProp (prop : List Char) (l : List Char) : Option (List Char) :=
  match splitCI prop l with
  | none => none
  | some (_, r1) =>
    match r1.dropWhile isWs with
    | ':' :: r2 =>
      if r2.takeWhile (fun c => c ≠ ';') = [] then none
      else
        match r2.dropWhile (fun c => c ≠ ';') with
        | ';' :: r3 => some r3
        | r3 => some r3
    | _ => none

/-- Fuel-driven worker for `propReplAll`. -/
def propReplAllAux (ch : CssChange) : Nat → List Char → List Char
  | 0, _ => []
  | _ + 1, [] => []
  | fuel + 1, c :: cs =>
    match tryProp ch.property.data (c :: cs) with
    | some rest =>
      (ch.property.data ++ (':' :: ' ' :: ch.value.data) ++ [';']) ++
        propReplAllAux ch fuel rest
    | none => c :: propReplAllAux ch fuel cs

/-- `String.prototype.replace` with the global property regex: replace every
occurrence of `PROP\s*:[^;]+;?` with `PROP: VALUE;`. -/
def propReplAll (ch : CssChange) (l : List Char) : List Char :=
  propReplAllAux ch l.length l

/-- `RegExp.prototype.test` for the property regex: does it match anywhere? -/
def propTest (prop : List Char) : List Char → Bool
  | [] => false
  | c :: cs => (tryProp prop (c :: cs)).isSome || propTest prop cs

/-- `trimEnd` (drop trailing whitespace). -/
def dropTrailingWs (l : List Char) : List Char := (l.reverse.dropWhile isWs).reverse

/-- The replacement callback of `applyWithRegex`, applied to the captured
group `before`; the closing brace re-appended by both source branches is
included here. -/
def rewriteBlock (ch : CssChange) (before : List Char) : List Char :=
  if propTest ch.property.data before then
    propReplAll ch before ++ ['\x7d']
  else
    dropTrailingWs before ++ ('\n' :: ' ' :: ' ' :: []) ++ ch.property.data ++
      (':' :: ' ' :: []) ++ ch.value.data ++ (';' :: '\n' :: '\x7d' :: [])

/-- Fuel-driven worker for `scanBlocks`. -/
def scanBlocksAux (ch : CssChange) (sel : List Char) : Nat → List Char → List Char × Bool
  | 0, _ => ([], false)
  | _ + 1, [] => ([], false)
  | fuel + 1, c :: cs =>
    match tryBlock sel (c :: cs) with
    | some (before, rest) =>
      let t := scanBlocksAux ch sel fuel rest
      (rewriteBlock ch before ++ t.1, true)
    | none =>
      let t := scanBlocksAux ch sel fuel cs
      (c :: t.1, t.2)

/-- The global selector-block replacement loop of `applyWithRegex`: leftmost
non-overlapping matches of the block regex, each rewritten by the callback;
the boolean is the source's `modified` flag (set by every match). -/
def scanBlocks (ch : CssChange) (sel : List Char) (l : List Char) : List Char × Bool :=
  scanBlocksAux ch sel l.length l

/-- `applyWithRegex` from `css-editor.ts`.  The source first regex-escapes the
selector; since the escaped metacharacters still match themselves literally,
the escaped pattern matches exactly the original selector text, which is how
`tryBlock` models it.  JavaScript `$`-substitution inside the string
replacement is not modelled (the replacements here are emitted literally). -/
def applyWithRegex (css : String) (ch : CssChange) : ModResult :=
  let t := scanBlocks ch ch.selector.data css.data
  ⟨t.2, String.mk t.1⟩

/-- `modifyCssContent` from `css-editor.ts`: structured parse and mutate; on a
parse failure fall back to `applyWithRegex`; when nothing matched, return the
original content unchanged. -/
def modifyCssContent (css : String) (ch : CssChange) : ModResult :=
  match cssParse css with
  | some rules =>
    let t := modifyStylesheet ch rules
    if t.2 then ⟨true, cssGenerate t.1⟩ else ⟨false, css⟩
  | none => applyWithRegex css ch

/-- `startsWith` on character lists (case-sensitive). -/
def startsWithL : List Char → List Char → Bool
  | [], _ => true
  | _ :: _, [] => false
  | p :: ps, c :: cs => p = c && startsWithL ps cs

/-- `String.prototype.includes` on character lists. -/
def containsL (pat : List Char) : List Char → Bool
  | [] => pat = []
  | c :: cs => startsWithL pat (c :: cs) || containsL pat cs

/-- `String.prototype.replace` with a plain string pattern: replace the first
occurrence of `pat` by `rep` (with an empty pattern matching at position 0,
as in JavaScript); `$`-substitution in `rep` is not modelled. -/
def replaceFirstL (pat rep : List Char) : List Char → List Char
  | [] => if pat = [] then rep else []
  | c :: cs =>
    if startsWithL pat (c :: cs) then rep ++ (c :: cs).drop pat.length
    else c :: replaceFirstL pat rep cs

/-- The lazy `([\s\S]*?)<\/style>` part of the style-block regex: the shortest
prefix (the captured css content) followed by the case-insensitive closing
tag.  Returns (content, closing tag as it occurs in the input, rest). -/
def findClose : List Char → Option (List Char × List Char × List Char)
  | [] => none
  | c :: cs =>
    match splitCI ("</style>").data (c :: cs) with
    | some (closeIn, rest) => some ([], closeIn, rest)
    | none =>
      match findClose cs with
      | some (content, closeIn, rest) => some (c :: content, closeIn, rest)
      | none => none

/-- Attempt the style-block regex `<style[^>]*>([\s\S]*?)<\/style>` (flags
`gi`) at the head of `l`.  Returns (full match, captured css content, rest). -/
def tryStyle (l : List Char) : Option (List Char × List Char × List Char) :=
  match splitCI ("<style").data l with
  | none => none
  | some (openIn, r1) =>
    let attrs := r1.takeWhile (fun c => c ≠ '>')
    match r1.dropWhile (fun c => c ≠ '>') with
    | '>' :: r2 =>
      match findClose r2 with
      | some (content, closeIn, rest) =>
        some (openIn ++ attrs ++ '>' :: (content ++ closeIn), content, rest)
      | none => none
    | _ => none

/-- Fuel-driven worker for `styleScan`. -/
def styleScanAux (ch : CssChange) : Nat → List Char → List Char × Bool
  | 0, _ => ([], false)
  | _ + 1, [] => ([], false)
  | fuel + 1, c :: cs =>
    match tryStyle (c :: cs) with
    | some (fullMatch, content, rest) =>
      let r := modifyCssContent (String.mk content) ch
      let t := styleScanAux ch fuel rest
      if r.modified then (replaceFirstL content r.content.data fullMatch ++ t.1, true)
      else (fullMatch ++ t.1, t.2)
    | none =>
      let t := styleScanAux ch fuel cs
      (c :: t.1, t.2)

/-- The while/exec loop of `applyToInlineStyle`, together with the replacement
callback: every matched style block whose css content the mutation engine
modifies is rewritten (by replacing the first occurrence of the captured
content inside the match, as `match.replace(cssContent, result.content)`
does); the boolean is the source's `found` flag. -/
def styleScan (ch : CssChange) (l : List Char) : List Char × Bool :=
  styleScanAux ch l.length l

/-- Result type of `applyToInlineStyle`. -/
structure FoundContent where
  found : Bool
  content : String
deriving Repr, DecidableEq

/-- `applyToInlineStyle` from `css-editor.ts`. -/
def applyToInlineStyle (html : String) (ch : CssChange) : FoundContent :=
  let t := styleScan ch html.data
  ⟨t.2, String.mk t.1⟩

/-- Fuel-driven worker for `styleContents`. -/
def styleContentsAux : Nat → List Char → List (List Char)
  | 0, _ => []
  | _ + 1, [] => []
  | fuel + 1, c :: cs =>
    match tryStyle (c :: cs) with
    | some (_, content, rest) => content :: styleContentsAux fuel rest
    | none => styleContentsAux fuel cs

/-- The collecting variant of the same style-block scan, as used by the
`styleRegex.exec` loop of `getStylesForSelector`: the captured css contents
of every style block, in document order. -/
def styleContents (l : List Char) : List (List Char) :=
  styleContentsAux l.length l

/-- Is the character one of the `["']` quote marks? -/
def quoteMark (c : Char) : Bool := c = '"' || c = '\''

/-- Attempt `rel=["']stylesheet["']` (case-insensitively) at the head. -/
def tryRel (l : List Char) : Option (List Char) :=
  match splitCI ("rel=").data l with
  | none => none
  | some (_, r1) =>
    match r1 with
    | q :: r2 =>
      if quoteMark q then
        match splitCI ("stylesheet").data r2 with
        | some (_, r3) =>
          match r3 with
          | q' :: r4 => if quoteMark q' then some r4 else none
          | [] => none
        | none => none
      else none
    | [] => none

/-- Scan for the first position (inside the tag, not crossing `>`) where the
`rel` pattern matches; models the backtracking of `[^>]+` before it. -/
def scanForRel : List Char → Option (List Char)
  | [] => none
  | c :: cs =>
    if c = '>' then none
    else
      match tryRel (c :: cs) with
      | some rest => some rest
      | none => scanForRel cs

/-- Attempt `href=["']([^"']+)["']` (case-insensitively) at the head;
returns (captured href text, rest after the match). -/
def tryHref (l : List Char) : Option (List Char × List Char) :=
  match splitCI ("href=").data l with
  | none => none
  | some (_, r1) =>
    match r1 with
    | q :: r2 =>
      if quoteMark q then
        if r2.takeWhile (fun c => !(quoteMark c)) = [] then none
        else
          match r2.dropWhile (fun c => !(quoteMark c)) with
          | q' :: r3 =>
            if quoteMark q' then some (r2.takeWhile (fun c => !(quoteMark c)), r3)
            else none
          | [] => none
      else none
    | [] => none

/-- Scan for the first position (inside the tag, not crossing `>`) where the
`href` pattern matches. -/
def scanForHref : List Char → Option (List Char × List Char)
  | [] => none
  | c :: cs =>
    if c = '>' then none
    else
      match tryHref (c :: cs) with
      | some x => some x
      | none => scanForHref cs

/-- Attempt the whole link regex
`<link[^>]+rel=["']stylesheet["'][^>]+href=["']([^"']+)["']` (flags `gi`) at
the head of `l`; returns (captured href, rest after the match).  The
`[^>]+` runs are modelled as: at least one non-`>` character, then a scan
(not crossing `>`) for the following literal part. -/
def tryLink (l : List Char) : Option (List Char × List Char) :=
  match splitCI ("<link").data l with
  | none => none
  | some (_, r1) =>
    match r1 with
    | c :: cs =>
      if c = '>' then none
      else
        match scanForRel cs with
        | some r2 =>
          match r2 with
          | c' :: cs' =>
            if c' = '>' then none
            else scanForHref cs'
          | [] => none
        | none => none
    | [] => none

/-- Fuel-driven worker for `linksScan`. -/
def linksScanAux : Nat → List Char → List (List Char)
  | 0, _ => []
  | _ + 1, [] => []
  | fuel + 1, c :: cs =>
    match tryLink (c :: cs) with
    | some (href, rest) => href :: linksScanAux fuel rest
    | none => linksScanAux fuel cs

/-- The exec loop of `findLinkedCssFiles`: all captured hrefs, in document
order. -/
def linksScan (l : List Char) : List (List Char) :=
  linksScanAux l.length l

/-- `path.resolve(baseDir, href)`, modelled as plain joining (an absolute
href wins); the verified claims do not depend on path canonicalization. -/
def resolveJoin (baseDir href : String) : String :=
  if startsWithL ("/").data href.data then href else baseDir ++ ("/") ++ href

/-- `findLinkedCssFiles` from `css-editor.ts`: hrefs of local stylesheet
links, resolved against the document's directory, in document order. -/
def findLinkedCssFiles (html : String) (baseDir : String) : List String :=
  (linksScan html.data).filterMap (fun hrefL =>
    if !(startsWithL ("http://").data hrefL) && !(startsWithL ("https://").data hrefL) &&
        !(startsWithL ("//").data hrefL) then
      some (resolveJoin baseDir (String.mk hrefL))
    else none)

/-- The filesystem: an association list from paths to file contents. -/
def FS := List (String × String)

/-- `fs.existsSync` + `fs.readFileSync`: `none` models a missing file. -/
def fsRead : FS → String → Option String
  | [], _ => none
  | (q, c) :: rest, p => if q = p then some c else fsRead rest p

/-- `fs.writeFileSync`: replace the first binding or append a new one. -/
def fsWrite : FS → String → String → FS
  | [], p, c => [(p, c)]
  | (q, d) :: rest, p, c =>
    if q = p then (p, c) :: rest else (q, d) :: fsWrite rest p c

/-- Apply a list of writes in order. -/
def fsWriteAll : FS → List (String × String) → FS
  | fs, [] => fs
  | fs, (p, c) :: rest => fsWriteAll (fsWrite fs p c) rest

/-- `path.resolve(p)` relative to a fixed working directory, modelled as the
identity on the already-resolved path strings used in this development. -/
def resolvePath (p : String) : String := p

/-- `path.dirname`. -/
def dirname (p : String) : String :=
  match p.data.reverse.dropWhile (fun c => c ≠ '/') with
  | [] => (".")
  | _ :: rest => if rest = [] then ("/") else String.mk rest.reverse

/-- `path.basename`. -/
def basename (p : String) : String :=
  String.mk (p.data.reverse.takeWhile (fun c => c ≠ '/')).reverse

/-- The synthesized style block text of `addStyleBlock`. -/
def newStyleText (ch : CssChange) : String :=
  ("\n<style>\n") ++ ch.selector ++ (" \x7b\n  ") ++ ch.property ++ (": ") ++
    ch.value ++ (";\n\x7d\n</style>")

/-- `addStyleBlock` from `css-editor.ts`: insert the new block before the
first occurrence of `</head>` when present, otherwise prepend it. -/
def addStyleBlock (html : String) (ch : CssChange) : String :=
  if containsL ("</head>").data html.data then
    String.mk (replaceFirstL ("</head>").data
      ((newStyleText ch).data ++ ("\n</head>").data) html.data)
  else
    newStyleText ch ++ ("\n") ++ html

/-- `ApplyResult` from `css-editor.ts`. -/
structure ApplyResult where
  success : Bool
  message : String
  modifiedFile : Option String
deriving Repr, DecidableEq

/-- `applyToCssFile` from `css-editor.ts`: `some newContent` when the file
exists and the mutation engine modified it (the source then writes exactly
that content to the file and reports `found`). -/
def applyToCssFile (fs : FS) (cssPath : String) (ch : CssChange) : Option String :=
  match fsRead fs cssPath with
  | none => none
  | some css =>
    let r := modifyCssContent css ch
    if r.modified then some r.content else none

/-- The strategy-2 loop of `applyCssChange` over the linked css files:
first file for which `applyToCssFile` reports found, with its new content. -/
def tryLinkedFiles (fs : FS) (ch : CssChange) : List String → Option (String × String)
  | [] => none
  | f :: rest =>
    match applyToCssFile fs f ch with
    | some content => some (f, content)
    | none => tryLinkedFiles fs ch rest

/-- `applyCssChange` from `css-editor.ts`.  Returns the `ApplyResult` and the
list of file writes the call performs, in order. -/
def applyCssChange (fs : FS) (htmlPath : String) (ch : CssChange) :
    ApplyResult × List (String × String) :=
  let absolutePath := resolvePath htmlPath
  match fsRead fs absolutePath with
  | none => (⟨false, ("Archivo no encontrado: ") ++ htmlPath, none⟩, [])
  | some htmlContent =>
    let styleResult := applyToInlineStyle htmlContent ch
    if styleResult.found then
      (⟨true, ("CSS aplicado en <style> de ") ++ basename htmlPath, some absolutePath⟩,
        [(absolutePath, styleResult.content)])
    else
      match tryLinkedFiles fs ch (findLinkedCssFiles htmlContent (dirname absolutePath)) with
      | some (cssFile, content) =>
        (⟨true, ("CSS aplicado en ") ++ basename cssFile, some cssFile⟩,
          [(cssFile, content)])
      | none =>
        (⟨true, ("Nuevo estilo añadido a ") ++ basename htmlPath, some absolutePath⟩,
          [(absolutePath, addStyleBlock htmlContent ch)])

/-- JavaScript object property assignment `styles[k] = v`: update the first
binding in place or append a new one (insertion order preserved). -/
def recSet : List (String × String) → String → String → List (String × String)
  | [], k, v => [(k, v)]
  | (k', v') :: rest, k, v =>
    if k' = k then (k, v) :: rest else (k', v') :: recSet rest k v

/-- `Object.assign(styles, extra)`: assign every binding of `extra` into
`styles` in order. -/
def recMerge (styles : List (String × String)) : List (String × String) → List (String × String)
  | [] => styles
  | (k, v) :: rest => recMerge (recSet styles k v) rest

/-- The declaration walk of `extractStylesFromCss` over one matching rule. -/
def declsInto (styles : List (String × String)) : List Decl → List (String × String)
  | [] => styles
  | d :: ds => declsInto (recSet styles d.property d.value) ds

/-- The rule walk of `extractStylesFromCss`. -/
def rulesInto (sel : String) (styles : List (String × String)) :
    List Rule → List (String × String)
  | [] => styles
  | r :: rs =>
    if normalizeSelector r.prelude = normalizeSelector sel then
      rulesInto sel (declsInto styles r.decls) rs
    else rulesInto sel styles rs

/-- `extractStylesFromCss` from `css-editor.ts`: declarations of every
matching rule in document order (later rules override earlier ones); a parse
failure is swallowed and contributes nothing. -/
def extractStylesFromCss (css : String) (targetSelector : String) :
    List (String × String) :=
  match cssParse css with
  | some rules => rulesInto targetSelector [] rules
  | none => []

/-- `getStylesForSelector` from `css-editor.ts`. -/
def getStylesForSelector (fs : FS) (htmlPath : String) (selector : String) :
    List (String × String) :=
  match fsRead fs htmlPath with
  | none => []
  | some htmlContent =>
    let fromStyleBlocks := (styleContents htmlContent.data).foldl
      (fun acc css => recMerge acc (extractStylesFromCss (String.mk css) selector)) []
    (findLinkedCssFiles htmlContent (dirname htmlPath)).foldl
      (fun acc f =>
        match fsRead fs f with
        | some css => recMerge acc (extractStylesFromCss css selector)
        | none => acc) fromStyleBlocks

/-- `SelectedElement` from the websocket module. -/
structure SelectedElement where
  selector : String
  tag : String
  line : Nat
  styles : List (String × String)
deriving Repr, DecidableEq

/-- The mutable module-level state of the websocket coordinator: the current
selection, the currently loaded document (path and content snapshot), the
queue of pending selection waiters (each modelled by a numeric id standing
for its resolve callback), and the filesystem the apply-css handler reads
and writes through `applyCssChange`. -/
structure WsState where
  selectedElement : Option SelectedElement
  currentHtml : Option (String × String)
  selectionResolvers : List Nat
  files : FS

/-- Outbound broadcasts of the apply-css handler. -/
inductive BroadcastMsg where
  | loadHtml (filePath content : String)
  | cssApplied (selector property value : String)
deriving Repr, DecidableEq

/-- Effects of one apply-css handling: file writes and broadcasts. -/
structure ApplyCssEffects where
  writes : List (String × String)
  broadcasts : List BroadcastMsg
deriving Repr, DecidableEq

/-- The `element-selected` case of `handleMessage`: replace the current
selection, resolve every pending waiter with it (returned as
(waiter, payload) pairs, in queue order), then clear the queue. -/
def handleElementSelected (st : WsState) (payload : SelectedElement) :
    WsState × List (Nat × SelectedElement) :=
  ({ st with selectedElement := some payload, selectionResolvers := [] },
    st.selectionResolvers.map (fun w => (w, payload)))

/-- The `apply-css` case of `handleMessage`: only when both a payload and a
current document are present, run `applyCssChange` against the current
document's path; on success re-read that file, replace the current document
content, and broadcast the refreshed document and a css-applied
acknowledgment.  Otherwise nothing happens. -/
def handleApplyCss (st : WsState) (payload : Option CssChange) :
    WsState × ApplyCssEffects :=
  match payload, st.currentHtml with
  | some ch, some (filePath, _) =>
    let r := applyCssChange st.files filePath ch
    if r.1.success then
      let files' := fsWriteAll st.files r.2
      let updated := (fsRead files' filePath).getD ("")
      ({ st with currentHtml := some (filePath, updated), files := files' },
        { writes := r.2,
          broadcasts := [BroadcastMsg.loadHtml filePath updated,
            BroadcastMsg.cssApplied ch.selector ch.property ch.value] })
    else
      ({ st with files := fsWriteAll st.files r.2 },
        { writes := r.2, broadcasts := [] })
  | _, _ => (st, { writes := [], broadcasts := [] })

/-- `waitForSelection`, entry: if a selection already exists, resolve
immediately with it (returned as `some`); otherwise register a waiter id at
the end of the queue (and return `none`: the caller is now pending). -/
def waitForSelection (st : WsState) (id : Nat) : WsState × Option SelectedElement :=
  match st.selectedElement with
  | some e => (st, some e)
  | none => ({ st with selectionResolvers := st.selectionResolvers ++ [id] }, none)

/-- `indexOf` + `splice(index, 1)`: remove the first occurrence. -/
def removeFirst : List Nat → Nat → List Nat
  | [], _ => []
  | x :: xs, id => if x = id then xs else x :: removeFirst xs id

/-- The timeout callback of `waitForSelection`: if the waiter is still in the
queue, remove it (first occurrence) and reject with the timeout error
(returned boolean `true`); otherwise do nothing. -/
def selectionTimeout (st : WsState) (id : Nat) : WsState × Bool :=
  if st.selectionResolvers.contains id then
    ({ st with selectionResolvers := removeFirst st.selectionResolvers id }, true)
  else (st, false)

/-- Stated from the spec: a rule matches the change iff the canonicalized
selector texts are equal. -/
def specMatches (ch : CssChange) (r : Rule) : Bool :=
  normalizeSelector r.prelude = normalizeSelector ch.selector

/-- Stated from the spec: inside a matching rule's block, if a declaration
with the change's property exists, every such declaration gets the change's
value; otherwise the new declaration is appended at the end of the block. -/
def specUpdateDecls (ch : CssChange) (ds : List Decl) : List Decl :=
  if ds.any (fun d => d.property = ch.property) then
    ds.map (fun d => if d.property = ch.property then ⟨d.property, ch.value⟩ else d)
  else ds ++ [⟨ch.property, ch.value⟩]

/-- Stated from the spec: matching rules are updated as above; all other
rules are untouched. -/
def specTransformRule (ch : CssChange) (r : Rule) : Rule :=
  if specMatches ch r then ⟨r.prelude, specUpdateDecls ch r.decls⟩ else r


/-- Token alphabet for the selector-normalization proof: a plain character, a
single space, a child-combinator group (one `\\s*>\\s*` match of the `>`
pass), or a comma. -/
inductive GTok where
  | tch (c : Char)
  | tsp
  | tgt
  | tcm
deriving Repr, DecidableEq

/-- Fuel-driven tokenizer mirroring the scan of the `>` replacement pass:
a `\\s*>\\s*` match becomes `tgt`, other characters become single tokens. -/
def gtToksAux : Nat → List Char → List GTok
  | 0, _ => []
  | _ + 1, [] => []
  | fuel + 1, c :: cs =>
    match trySep '>' (c :: cs) with
    | some rest => GTok.tgt :: gtToksAux fuel rest
    | none =>
      (if c = ',' then GTok.tcm else if isWs c then GTok.tsp else GTok.tch c) ::
        gtToksAux fuel cs

/-- Tokenization of a whitespace-collapsed selector string. -/
def gtToks (l : List Char) : List GTok := gtToksAux l.length l

/-- Output of the `>` pass, token by token. -/
def gOut : List GTok → List Char
  | [] => []
  | GTok.tch c :: ts => c :: gOut ts
  | GTok.tsp :: ts => ' ' :: gOut ts
  | GTok.tcm :: ts => ',' :: gOut ts
  | GTok.tgt :: ts => ' ' :: '>' :: ' ' :: gOut ts

mutual

/-- Output of the comma pass applied to `gOut`: commas absorb adjacent
spaces (including the trailing space of a `tgt` group). -/
def cOut : List GTok → List Char
  | [] => []
  | GTok.tch c :: ts => c :: cOut ts
  | GTok.tsp :: GTok.tcm :: ts => cOut (GTok.tcm :: ts)
  | GTok.tsp :: ts => ' ' :: cOut ts
  | GTok.tcm :: GTok.tsp :: ts => cOut (GTok.tcm :: ts)
  | GTok.tcm :: GTok.tgt :: ts => ',' :: ' ' :: '>' :: gtTail ts
  | GTok.tcm :: ts => ',' :: ' ' :: cOut ts
  | GTok.tgt :: ts => ' ' :: '>' :: gtTail ts
termination_by ts => (ts.length, 1)

/-- Continuation after an emitted `>`: the group's trailing space is eaten
by a following comma. -/
def gtTail : List GTok → List Char
  | GTok.tcm :: ts => cOut (GTok.tcm :: ts)
  | ts => ' ' :: cOut ts
termination_by ts => (ts.length, 2)

end

mutual

/-- The whitespace-collapsed form of `cOut` (no double space at a `tgt`-`tgt`
junction); used to describe the second normalization pass. -/
def cOutK : List GTok → List Char
  | [] => []
  | GTok.tch c :: ts => c :: cOutK ts
  | GTok.tsp :: GTok.tcm :: ts => cOutK (GTok.tcm :: ts)
  | GTok.tsp :: ts => ' ' :: cOutK ts
  | GTok.tcm :: GTok.tsp :: ts => cOutK (GTok.tcm :: ts)
  | GTok.tcm :: GTok.tgt :: ts => ',' :: ' ' :: '>' :: gtTailK ts
  | GTok.tcm :: ts => ',' :: ' ' :: cOutK ts
  | GTok.tgt :: ts => ' ' :: '>' :: gtTailK ts
termination_by ts => (ts.length, 1)

/-- Continuation after an emitted `>` in the collapsed form: a following
comma eats the trailing space, a following `tgt` keeps a single space. -/
def gtTailK : List GTok → List Char
  | GTok.tcm :: ts => cOutK (GTok.tcm :: ts)
  | GTok.tgt :: ts => ' ' :: '>' :: gtTailK ts
  | ts => ' ' :: cOutK ts
termination_by ts => (ts.length, 2)

end

/-- The trimmed-and-collapsed spelling of a normalized selector (the input
to the tokenizer in the second pass): `cOutK` minus the leading space of an
initial `tgt` group. -/
def spell : List GTok → List Char
  | GTok.tgt :: ts => '>' :: gtTailK ts
  | ts => cOutK ts

/-- Structural invariant of token lists produced by tokenizing a collapsed
selector: plain characters are plain, no two adjacent spaces, no space
adjacent to a combinator group. -/
def goodG : List GTok → Bool
  | [] => true
  | GTok.tch c :: ts => !(isWs c) && !(c = '>') && !(c = ',') && goodG ts
  | GTok.tsp :: GTok.tsp :: _ => false
  | GTok.tsp :: GTok.tgt :: _ => false
  | GTok.tgt :: GTok.tsp :: _ => false
  | _ :: ts => goodG ts

/-- Canonical token form after one normalization pass: space tokens adjacent
to a comma are absorbed by it, and a comma directly followed by a plain
character or another comma regains exactly one separating space token. -/
def cnf : List GTok → List GTok
  | [] => []
  | GTok.tsp :: GTok.tcm :: ts => cnf (GTok.tcm :: ts)
  | GTok.tcm :: GTok.tsp :: ts => cnf (GTok.tcm :: ts)
  | GTok.tcm :: GTok.tch c :: ts => GTok.tcm :: GTok.tsp :: cnf (GTok.tch c :: ts)
  | GTok.tcm :: GTok.tcm :: ts => GTok.tcm :: GTok.tsp :: cnf (GTok.tcm :: ts)
  | x :: ts => x :: cnf ts
termination_by ts => ts.length

/-- Does the normalized output end in a trailing space (last token a comma
or combinator group)? -/
def lastTok : List GTok → Option GTok
  | [] => none
  | [x] => some x
  | _ :: ts => lastTok ts

/-- Drop leading whitespace (`dropWhile`): the left half of `trim`. -/
def stripLead (l : List Char) : List Char := l.dropWhile isWs

/-- Drop trailing whitespace: the right half of `trim`. -/
def stripTrail (l : List Char) : List Char := (l.reverse.dropWhile isWs).reverse

/-- Every whitespace character is a plain space. -/
def spaceOnly (l : List Char) : Bool := l.all (fun c => !(isWs c) || c = ' ')

/-- No two adjacent whitespace characters. -/
def noDouble : List Char → Bool
  | [] => true
  | [_] => true
  | c1 :: c2 :: cs => !(isWs c1 && isWs c2) && noDouble (c2 :: cs)

/-- The first character, if any, is not whitespace. -/
def noLeadWs : List Char → Bool
  | [] => true
  | c :: _ => !(isWs c)

/-- The last character, if any, is not whitespace. -/
def noTrailWs (l : List Char) : Bool := noLeadWs l.reverse

/-- The first token, if any, is not a space token. -/
def headOk : List GTok → Bool
  | GTok.tsp :: _ => false
  | _ => true

/-- The last token, if any, is not a space token. -/
def lastOk (ts : List GTok) : Bool := !(lastTok ts = some GTok.tsp)

/-- The trailing space token the tokenizer re-reads after a final comma. -/
def pads (ts : List GTok) : List GTok :=
  if lastTok ts = some GTok.tcm then [GTok.tsp] else []

/-- The trailing characters of the canonical spelling, per final token. -/
def trailShape : Option GTok → List Char
  | some (GTok.tch c) => [c]
  | some GTok.tsp => [' ']
  | some GTok.tgt => ['>', ' ']
  | some GTok.tcm => [',', ' ']
  | none => []

/-! ### Theorems -/

theorem applyToDecls_eq (ch : CssChange) (ds : List Decl) :
    applyToDecls ch ds =
      (ds.map (fun d => if d.property = ch.property then ⟨d.property, ch.value⟩ else d),
        ds.any (fun d => d.property = ch.property)) := by
  induction ds with
  | nil => rfl
  | cons d ds ih =>
    simp only [applyToDecls, ih, List.map_cons, List.any_cons]
    by_cases hd : d.property = ch.property
    · simp [hd]
    · simp [hd]

theorem map_id_of_not_any (ch : CssChange) (ds : List Decl)
    (h : ds.any (fun d => d.property = ch.property) = false) :
    ds.map (fun d =>
      if d.property = ch.property then (⟨d.property, ch.value⟩ : Decl) else d) = ds := by
  induction ds with
  | nil => rfl
  | cons d ds ih =>
    simp only [List.any_cons, Bool.or_eq_false_iff, decide_eq_false_iff_not] at h
    simp [h.1, ih h.2]

theorem transformRule_eq (ch : CssChange) (r : Rule)
    (hm : normalizeSelector r.prelude = normalizeSelector ch.selector) :
    (⟨r.prelude, if (applyToDecls ch r.decls).2 then (applyToDecls ch r.decls).1
      else (applyToDecls ch r.decls).1 ++ [⟨ch.property, ch.value⟩]⟩ : Rule) =
    specTransformRule ch r := by
  rw [applyToDecls_eq]
  have hsm : specMatches ch r = true := by simp [specMatches, hm]
  rw [specTransformRule, if_pos hsm]
  simp only [specUpdateDecls]
  by_cases h2 : r.decls.any (fun d => d.property = ch.property) = true
  · simp [h2]
  · simp only [Bool.not_eq_true] at h2
    simp [h2, map_id_of_not_any ch r.decls h2]

theorem modifyStylesheet_eq (ch : CssChange) (rules : List Rule) :
    modifyStylesheet ch rules =
      (rules.map (specTransformRule ch), rules.any (specMatches ch)) := by
  induction rules with
  | nil => rfl
  | cons r rs ih =>
    simp only [modifyStylesheet, ih]
    by_cases hm : normalizeSelector r.prelude = normalizeSelector ch.selector
    · have hsm : specMatches ch r = true := by simp [specMatches, hm]
      rw [if_pos hm, List.map_cons, List.any_cons, hsm, Bool.true_or,
        ← transformRule_eq ch r hm]
    · have hsm : specMatches ch r = false := by simp [specMatches, hm]
      have hid : specTransformRule ch r = r := by simp [specTransformRule, hsm]
      rw [if_neg hm, List.map_cons, List.any_cons, hsm, Bool.false_or, hid]

/-- Claim C3: for every CSS fragment that parses successfully and every
change, the mutation engine transforms exactly the rules whose canonicalized
selector equals the canonicalized change selector — replacing the value of an
existing declaration with the change's property, or appending the new
declaration at the end of the block — for every matching rule, and the
modified flag is set iff some rule matched. -/
theorem claim_C3 (css : String) (rules : List Rule) (ch : CssChange)
    (hparse : cssParse css = some rules) :
    modifyStylesheet ch rules =
      (rules.map (specTransformRule ch), rules.any (specMatches ch)) ∧
    modifyCssContent css ch =
      (if rules.any (specMatches ch) then
        ⟨true, cssGenerate (rules.map (specTransformRule ch))⟩
        else ⟨false, css⟩) := by
  refine ⟨modifyStylesheet_eq ch rules, ?_⟩
  simp only [modifyCssContent, hparse, modifyStylesheet_eq]

/-- Witness for C3 at a concrete fragment. -/
theorem claim_C3_witness :
    cssParse ("h1 \x7b color: blue \x7d") = some [⟨("h1"), [⟨("color"), ("blue")⟩]⟩] ∧
    modifyStylesheet ⟨("h1"), ("color"), ("red")⟩ [⟨("h1"), [⟨("color"), ("blue")⟩]⟩] =
      ([⟨("h1"), [⟨("color"), ("red")⟩]⟩], true) := by
  have h := claim_C3 ("h1 \x7b color: blue \x7d") [⟨("h1"), [⟨("color"), ("blue")⟩]⟩]
    ⟨("h1"), ("color"), ("red")⟩ (by decide)
  refine ⟨by decide, ?_⟩
  rw [h.1]
  decide

/-- Claim C5: for every CSS fragment whose structured parse succeeds but in
which no rule's canonicalized selector matches the change's canonicalized
selector, the mutation engine returns modified = false and the content
exactly as given. -/
theorem claim_C5 (css : String) (rules : List Rule) (ch : CssChange)
    (hparse : cssParse css = some rules)
    (hnone : ∀ r ∈ rules, normalizeSelector r.prelude ≠ normalizeSelector ch.selector) :
    modifyCssContent css ch = ⟨false, css⟩ := by
  have hn : rules.any (specMatches ch) = false := by
    rw [List.any_eq_false]
    intro r hr
    simp only [specMatches, decide_eq_true_eq]
    exact hnone r hr
  simp only [modifyCssContent, hparse, modifyStylesheet_eq, hn, Bool.false_eq_true,
    if_false]

/-- Witness for C5 at a concrete fragment. -/
theorem claim_C5_witness :
    modifyCssContent ("h2 \x7b color: blue; \x7d") ⟨("h1"), ("color"), ("red")⟩ =
      ⟨false, ("h2 \x7b color: blue; \x7d")⟩ := by
  exact claim_C5 ("h2 \x7b color: blue; \x7d") [⟨("h2"), [⟨("color"), ("blue")⟩]⟩]
    ⟨("h1"), ("color"), ("red")⟩ (by decide) (by decide)

/-- Claim C2: `applyCssChange` fails exactly when the document path does not
resolve to an existing file; on failure it writes nothing, and on every
success it performs exactly one file write. -/
theorem claim_C2 (fs : FS) (p : String) (ch : CssChange) :
    ((applyCssChange fs p ch).1.success = false ↔ fsRead fs (resolvePath p) = none) ∧
    (fsRead fs (resolvePath p) = none → (applyCssChange fs p ch).2 = []) ∧
    (fsRead fs (resolvePath p) ≠ none → ((applyCssChange fs p ch).2).length = 1) := by
  rcases hr : fsRead fs (resolvePath p) with _ | html
  · simp [applyCssChange, hr]
  · refine ⟨?_, ?_, ?_⟩
    · simp only [applyCssChange, hr]
      constructor
      · intro hs
        exfalso
        by_cases hf : (applyToInlineStyle html ch).found = true
        · simp [hf] at hs
        · simp only [Bool.not_eq_true] at hf
          simp only [hf, Bool.false_eq_true, if_false] at hs
          rcases hl : tryLinkedFiles fs ch
              (findLinkedCssFiles html (dirname (resolvePath p))) with _ | pr
          · simp [hl] at hs
          · obtain ⟨f, cont⟩ := pr
            simp [hl] at hs
      · intro hn
        simp at hn
    · intro hn
      simp at hn
    · intro _
      simp only [applyCssChange, hr]
      by_cases hf : (applyToInlineStyle html ch).found = true
      · simp [hf]
      · simp only [Bool.not_eq_true] at hf
        simp only [hf, Bool.false_eq_true, if_false]
        rcases hl : tryLinkedFiles fs ch
            (findLinkedCssFiles html (dirname (resolvePath p))) with _ | pr
        · simp [hl]
        · obtain ⟨f, cont⟩ := pr
          simp [hl]

/-- Claim C10: an apply-css event with a missing payload or no loaded
document performs no file write, emits no broadcast, and leaves the whole
coordinator state (document, selection, waiter queue, files) unchanged. -/
theorem claim_C10 (st : WsState) (payload : Option CssChange)
    (h : payload = none ∨ st.currentHtml = none) :
    handleApplyCss st payload = (st, ⟨[], []⟩) := by
  obtain ⟨se, chtml, sr, fl⟩ := st
  rcases h with h | h
  · subst h
    rcases chtml with _ | p
    · rfl
    · obtain ⟨fp, ct⟩ := p
      rfl
  · simp only at h
    subst h
    rcases payload with _ | c
    · rfl
    · rfl

/-- Witness for C10 at a concrete state. -/
theorem claim_C10_witness :
    handleApplyCss ⟨none, none, [], []⟩ (some ⟨("h1"), ("color"), ("red")⟩) =
      (⟨none, none, [], []⟩, ⟨[], []⟩) :=
  claim_C10 ⟨none, none, [], []⟩ (some ⟨("h1"), ("color"), ("red")⟩) (Or.inr rfl)

theorem removeFirst_not_contains (l : List Nat) (id : Nat)
    (h : l.count id ≤ 1) : (removeFirst l id).contains id = false := by
  induction l with
  | nil => rfl
  | cons x xs ih =>
    by_cases hx : x = id
    · subst hx
      simp only [List.count_cons_self] at h
      have hc : xs.count x = 0 := by omega
      rw [List.count_eq_zero] at hc
      simp only [removeFirst, if_pos rfl]
      simpa using hc
    · simp only [removeFirst, if_neg hx]
      have h' : xs.count id ≤ 1 := by
        rw [List.count_cons] at h
        omega
      simp only [List.contains_cons, ih h', Bool.or_false]
      simp only [beq_eq_false_iff_ne, ne_eq]
      omega

/-- Claim C6: an element-selected event resolves every waiter pending at that
moment with the identical selection payload (in queue order) and clears the
queue; `waitForSelection` with an existing selection resolves immediately
without registering a waiter; a timeout removes a still-pending waiter from
the queue and reports the timeout failure, is a no-op for a waiter no longer
in the queue, and a removed waiter is gone — so each waiter is removed
exactly once, by resolution or by timeout. -/
theorem claim_C6 (st : WsState) (e : SelectedElement) (id : Nat) :
    ((handleElementSelected st e).1.selectedElement = some e ∧
      (handleElementSelected st e).1.selectionResolvers = [] ∧
      (handleElementSelected st e).2 = st.selectionResolvers.map (fun w => (w, e))) ∧
    (∀ pr ∈ (handleElementSelected st e).2, pr.2 = e) ∧
    (st.selectedElement = some e → waitForSelection st id = (st, some e)) ∧
    (st.selectedElement = none →
      waitForSelection st id =
        ({ st with selectionResolvers := st.selectionResolvers ++ [id] }, none)) ∧
    (st.selectionResolvers.contains id = true →
      selectionTimeout st id =
        ({ st with selectionResolvers := removeFirst st.selectionResolvers id }, true)) ∧
    (st.selectionResolvers.contains id = false → selectionTimeout st id = (st, false)) ∧
    (st.selectionResolvers.count id ≤ 1 →
      (removeFirst st.selectionResolvers id).contains id = false) := by
  refine ⟨⟨rfl, rfl, rfl⟩, ?_, ?_, ?_, ?_, ?_, ?_⟩
  · intro pr hpr
    simp only [handleElementSelected, List.mem_map] at hpr
    obtain ⟨w, _, hw⟩ := hpr
    rw [← hw]
  · intro hsel
    simp [waitForSelection, hsel]
  · intro hsel
    simp [waitForSelection, hsel]
  · intro hc
    unfold selectionTimeout
    rw [if_pos hc]
  · intro hc
    unfold selectionTimeout
    rw [if_neg (by rw [hc]; simp)]
  · exact removeFirst_not_contains _ _

/-- Witness for C6 at concrete states. -/
theorem claim_C6_witness :
    (handleElementSelected ⟨none, none, [3, 7], []⟩ ⟨("h1"), ("h1"), 1, []⟩).2 =
      [(3, ⟨("h1"), ("h1"), 1, []⟩), (7, ⟨("h1"), ("h1"), 1, []⟩)] ∧
    waitForSelection ⟨some ⟨("h1"), ("h1"), 1, []⟩, none, [], []⟩ 5 =
      (⟨some ⟨("h1"), ("h1"), 1, []⟩, none, [], []⟩, some ⟨("h1"), ("h1"), 1, []⟩) ∧
    selectionTimeout ⟨none, none, [3, 7], []⟩ 3 = (⟨none, none, [7], []⟩, true) := by
  refine ⟨?_, ?_, ?_⟩
  · have h := (claim_C6 ⟨none, none, [3, 7], []⟩ ⟨("h1"), ("h1"), 1, []⟩ 0).1.2.2
    rw [h]
    rfl
  · exact (claim_C6 ⟨some ⟨("h1"), ("h1"), 1, []⟩, none, [], []⟩
      ⟨("h1"), ("h1"), 1, []⟩ 5).2.2.1 rfl
  · have h := (claim_C6 ⟨none, none, [3, 7], []⟩ ⟨("h1"), ("h1"), 1, []⟩ 3).2.2.2.2.1 rfl
    rw [h]
    rfl

/-- Claim C1: when the document's embedded style blocks contain a rule
matching the change (the inline strategy reports found) — even while a linked
local stylesheet also contains a matching rule — `applyCssChange` writes
only the document file, with the inline rewrite as content, and returns
`modifiedFile` equal to the document's own resolved path; the linked
strategy is never consulted. -/
theorem claim_C1 (fs : FS) (docPath : String) (ch : CssChange) (html : String)
    (hread : fsRead fs (resolvePath docPath) = some html)
    (hinline : (applyToInlineStyle html ch).found = true)
    (hlinked : ∃ f ∈ findLinkedCssFiles html (dirname (resolvePath docPath)),
      ∃ css, fsRead fs f = some css ∧ (modifyCssContent css ch).modified = true) :
    applyCssChange fs docPath ch =
      (⟨true, ("CSS aplicado en <style> de ") ++ basename docPath,
        some (resolvePath docPath)⟩,
        [(resolvePath docPath, (applyToInlineStyle html ch).content)]) := by
  simp only [applyCssChange, hread, hinline, if_true]

/-- Witness for C1: a document with both a matching embedded block and a
matching linked stylesheet; only the document is written. -/
theorem claim_C1_witness :
    applyCssChange
      [(("/p/index.html"),
        ("<html><head><style>h1\x7bcolor:blue\x7d</style><link rel=\"stylesheet\" href=\"a.css\"></head></html>")),
        (("/p/a.css"), ("h1 \x7b color: green; \x7d"))]
      ("/p/index.html") ⟨("h1"), ("color"), ("red")⟩ =
      (⟨true, ("CSS aplicado en <style> de index.html"), some ("/p/index.html")⟩,
        [(("/p/index.html"),
          ("<html><head><style>h1\x7bcolor:red\x7d</style><link rel=\"stylesheet\" href=\"a.css\"></head></html>"))]) := by
  have h := claim_C1
    [(("/p/index.html"),
      ("<html><head><style>h1\x7bcolor:blue\x7d</style><link rel=\"stylesheet\" href=\"a.css\"></head></html>")),
      (("/p/a.css"), ("h1 \x7b color: green; \x7d"))]
    ("/p/index.html") ⟨("h1"), ("color"), ("red")⟩
    ("<html><head><style>h1\x7bcolor:blue\x7d</style><link rel=\"stylesheet\" href=\"a.css\"></head></html>")
    (by decide) (by decide)
    ⟨("/p/a.css"), by decide, ("h1 \x7b color: green; \x7d"), by decide, by decide⟩
  rw [h]
  decide

theorem startsWithL_append {pat x : List Char} (h : startsWithL pat x = true)
    (y : List Char) : startsWithL pat (x ++ y) = true := by
  induction pat generalizing x with
  | nil => rfl
  | cons p ps ih =>
    cases x with
    | nil => simp [startsWithL] at h
    | cons c cs =>
      simp only [startsWithL, Bool.and_eq_true, decide_eq_true_eq] at h
      simp only [List.cons_append, startsWithL, Bool.and_eq_true, decide_eq_true_eq]
      exact ⟨h.1, ih h.2⟩

theorem startsWithL_ex {pat l : List Char} (h : startsWithL pat l = true) :
    l = pat ++ l.drop pat.length := by
  induction pat generalizing l with
  | nil => simp
  | cons p ps ih =>
    cases l with
    | nil => simp [startsWithL] at h
    | cons c cs =>
      simp only [startsWithL, Bool.and_eq_true, decide_eq_true_eq] at h
      simp only [List.length_cons, List.drop_succ_cons, List.cons_append, h.1]
      exact congrArg (c :: ·) (ih h.2)

theorem replaceFirstL_split (pat rep : List Char) (hpat : pat ≠ []) :
    ∀ l, containsL pat l = true →
      ∃ pre post, l = pre ++ pat ++ post ∧ containsL pat pre = false ∧
        replaceFirstL pat rep l = pre ++ rep ++ post := by
  intro l
  induction l with
  | nil =>
    intro h
    simp only [containsL, decide_eq_true_eq] at h
    exact absurd h hpat
  | cons c cs ih =>
    intro h
    by_cases hs : startsWithL pat (c :: cs) = true
    · refine ⟨[], (c :: cs).drop pat.length, ?_, ?_, ?_⟩
      · simpa using startsWithL_ex hs
      · simp [containsL, hpat]
      · simp only [replaceFirstL, if_pos hs, List.nil_append]
    · have h' : containsL pat cs = true := by
        simp only [containsL, Bool.or_eq_true] at h
        rcases h with h | h
        · exact absurd h hs
        · exact h
      obtain ⟨pre, post, hl, hc, hr⟩ := ih h'
      refine ⟨c :: pre, post, by simp [hl], ?_, ?_⟩
      · simp only [containsL, Bool.or_eq_false_iff]
        constructor
        · cases hsw : startsWithL pat (c :: pre) with
          | false => rfl
          | true =>
            exfalso
            have hap := startsWithL_append hsw (pat ++ post)
            have : (c :: pre) ++ (pat ++ post) = c :: cs := by
              simp [hl]
            rw [this] at hap
            exact hs hap
        · exact hc
      · simp only [replaceFirstL, if_neg hs, hr, List.cons_append]

/-- Claim C4: when neither the inline strategy nor the linked strategy finds
a matching rule, `applyCssChange` synthesizes a new style block with exactly
the requested rule, rewrites the main document (reporting success and the
document's resolved path), and the block is inserted immediately before the
first `</head>` when one is present, otherwise prepended. -/
theorem claim_C4 (fs : FS) (p : String) (ch : CssChange) (html : String)
    (hread : fsRead fs (resolvePath p) = some html)
    (hinline : (applyToInlineStyle html ch).found = false)
    (hlinked : tryLinkedFiles fs ch
      (findLinkedCssFiles html (dirname (resolvePath p))) = none) :
    applyCssChange fs p ch =
      (⟨true, ("Nuevo estilo añadido a ") ++ basename p, some (resolvePath p)⟩,
        [(resolvePath p, addStyleBlock html ch)]) ∧
    (containsL ("</head>").data html.data = true →
      ∃ pre post, html.data = pre ++ ("</head>").data ++ post ∧
        containsL ("</head>").data pre = false ∧
        (addStyleBlock html ch).data =
          pre ++ (newStyleText ch).data ++ ("\n</head>").data ++ post) ∧
    (containsL ("</head>").data html.data = false →
      addStyleBlock html ch = newStyleText ch ++ ("\n") ++ html) := by
  refine ⟨?_, ?_, ?_⟩
  · simp only [applyCssChange, hread, hinline, Bool.false_eq_true, if_false, hlinked]
  · intro hc
    obtain ⟨pre, post, hl, hcp, hr⟩ :=
      replaceFirstL_split ("</head>").data
        ((newStyleText ch).data ++ ("\n</head>").data) (by decide) html.data hc
    refine ⟨pre, post, hl, hcp, ?_⟩
    simp only [addStyleBlock, hc, if_true, hr, List.append_assoc]
  · intro hc
    simp [addStyleBlock, hc]

/-- Witness for C4: a document with no matching rule anywhere; the block is
inserted before the closing head tag. -/
theorem claim_C4_witness :
    applyCssChange [(("/p/i.html"), ("<html><head></head><body></body></html>"))]
      ("/p/i.html") ⟨("h2"), ("color"), ("red")⟩ =
      (⟨true, ("Nuevo estilo añadido a i.html"), some ("/p/i.html")⟩,
        [(("/p/i.html"),
          ("<html><head>\n<style>\nh2 \x7b\n  color: red;\n\x7d\n</style>\n</head><body></body></html>"))]) := by
  have h := claim_C4 [(("/p/i.html"), ("<html><head></head><body></body></html>"))]
    ("/p/i.html") ⟨("h2"), ("color"), ("red")⟩
    ("<html><head></head><body></body></html>")
    (by decide) (by decide) (by decide)
  rw [h.1]
  decide

/-- The fallback rewrites a block only where the literal selector text
matches (case-insensitively) at some position of the input, followed by
optional whitespace and a brace-delimited block. -/
theorem scanBlocksAux_modified_ex (ch : CssChange) (sel : List Char) :
    ∀ (fuel : Nat) (l : List Char), (scanBlocksAux ch sel fuel l).2 = true →
      ∃ i before rest, tryBlock sel (l.drop i) = some (before, rest) := by
  intro fuel
  induction fuel with
  | zero => intro l h; simp [scanBlocksAux] at h
  | succ fuel ih =>
    intro l h
    cases l with
    | nil => simp [scanBlocksAux] at h
    | cons c cs =>
      simp only [scanBlocksAux] at h
      cases htb : tryBlock sel (c :: cs) with
      | some pr =>
        obtain ⟨before, rest⟩ := pr
        exact ⟨0, before, rest, by simpa using htb⟩
      | none =>
        rw [htb] at h
        simp only at h
        obtain ⟨i, before, rest, hi⟩ := ih cs h
        exact ⟨i + 1, before, rest, by simpa using hi⟩

/-- Claim C7, amended: in the fallback text-patcher path, selector
normalization is not applied (a pair of selectors the structured engine
treats as equal is not matched), and a block is rewritten only where the
literal (regex-escaped) selector text matches case-insensitively, followed
by optional whitespace and `{` — but the match is not anchored at the
block's opening, so a block whose own selector text differs literally from
the change's selector (for example by a preceding ancestor part, or by
letter case) is rewritten as well whenever the change's selector occurs
inside it. -/
theorem claim_C7 :
    (normalizeSelector (".x > .y") = normalizeSelector (".x >.y") ∧
      applyWithRegex (".x >.y \x7b color: blue; \x7d") ⟨(".x > .y"), ("color"), ("red")⟩ =
        ⟨false, (".x >.y \x7b color: blue; \x7d")⟩) ∧
    (applyWithRegex ("div h1 \x7b color: blue; \x7d") ⟨("h1"), ("color"), ("red")⟩ =
      ⟨true, ("div h1 \x7b color: red; \x7d")⟩ ∧
      applyWithRegex ("H1 \x7b color: blue; \x7d") ⟨("h1"), ("color"), ("red")⟩ =
        ⟨true, ("H1 \x7b color: red; \x7d")⟩) ∧
    (∀ (css : String) (ch : CssChange), (applyWithRegex css ch).modified = true →
      ∃ i before rest,
        tryBlock ch.selector.data (css.data.drop i) = some (before, rest)) := by
  refine ⟨by decide, by decide, ?_⟩
  intro css ch h
  exact scanBlocksAux_modified_ex ch ch.selector.data css.data.length css.data h

/-- Witness for C7 (amended): the general only-where-matched part at the
concrete rewritten input. -/
theorem claim_C7_witness :
    ∃ i before rest,
      tryBlock (("h1") : String).data
        ((("div h1 \x7b color: blue; \x7d") : String).data.drop i) =
        some (before, rest) :=
  claim_C7.2.2 ("div h1 \x7b color: blue; \x7d") ⟨("h1"), ("color"), ("red")⟩ (by decide)

/-- Counterexample to C7 as stated: the claim's final conjunct says the
fallback never rewrites a block whose selector text differs literally from
the change's selector; but for change selector `h1` the only block of this
fragment, whose selector text is `div h1`, is rewritten (the block regex is
unanchored: it matches the occurrence of `h1` inside `div h1`). -/
theorem claim_C7_counterexample :
    applyWithRegex ("div h1 \x7b color: blue; \x7d") ⟨("h1"), ("color"), ("red")⟩ =
      ⟨true, ("div h1 \x7b color: red; \x7d")⟩ ∧
    (("div h1") : String) ≠ ("h1") := by decide

/-- Claim C9: `getStylesForSelector` is a total function (it never throws):
a missing file yields the empty mapping, a fragment whose parse fails
contributes no entries (`extractStylesFromCss` returns the empty mapping),
and merging an empty contribution leaves the accumulated styles unchanged,
so the remaining fragments are still processed. -/
theorem claim_C9 (fs : FS) (p sel css : String) :
    (fsRead fs p = none → getStylesForSelector fs p sel = []) ∧
    (cssParse css = none → extractStylesFromCss css sel = []) ∧
    (∀ acc : List (String × String), recMerge acc [] = acc) := by
  refine ⟨?_, ?_, fun acc => rfl⟩
  · intro h
    simp [getStylesForSelector, h]
  · intro h
    simp [extractStylesFromCss, h]

/-- Witness for C9: a missing file, a failing fragment, and a document whose
first style block fails to parse while the second is still extracted. -/
theorem claim_C9_witness :
    getStylesForSelector [] ("/x.html") ("h2") = [] ∧
    extractStylesFromCss ("h1 \x7b color ") ("h1") = [] ∧
    getStylesForSelector
      [(("/x.html"), ("<style>h1\x7bcolor:\x7d</style><style>h2\x7bx:y\x7d</style>"))]
      ("/x.html") ("h2") = [(("x"), ("y"))] := by
  refine ⟨?_, ?_, by decide⟩
  · exact (claim_C9 [] ("/x.html") ("h2") ("")).1 rfl
  · exact (claim_C9 [] ("/x.html") ("h1") ("h1 \x7b color ")).2.1 (by decide)

/-!
Development for claim C8: idempotence of `normalizeSelector`.  The pipeline
is characterized through the token alphabet `GTok`: the first pass is
`gOut ∘ gtToks`, the comma pass turns `gOut` into `cOut`, and the second
normalization pass reproduces the same output.
-/

theorem trySep_length {sep : Char} {l rest : List Char}
    (h : trySep sep l = some rest) : rest.length < l.length := by
  unfold trySep at h
  rcases hd : l.dropWhile isWs with _ | ⟨c, r⟩ <;> rw [hd] at h
  · simp at h
  · by_cases hc : c = sep
    · simp only [hc, if_true, Option.some.injEq, if_pos] at h
      have h1 : (l.dropWhile isWs).length ≤ l.length :=
        (List.dropWhile_sublist isWs).length_le
      have h2 : (r.dropWhile isWs).length ≤ r.length :=
        (List.dropWhile_sublist isWs).length_le
      rw [hd] at h1
      rw [h] at h2
      simp only [List.length_cons] at h1
      omega
    · simp [hc] at h

theorem sepReplAux_congr (sep : Char) (rep : List Char) :
    ∀ (n : Nat) (f g : Nat) (l : List Char), l.length ≤ n → l.length ≤ f →
      l.length ≤ g → sepReplAux sep rep f l = sepReplAux sep rep g l := by
  intro n
  induction n with
  | zero =>
    intro f g l hn _ _
    have : l = [] := List.eq_nil_of_length_eq_zero (by omega)
    subst this
    cases f <;> cases g <;> rfl
  | succ n ih =>
    intro f g l _ hf hg
    cases l with
    | nil => cases f <;> cases g <;> rfl
    | cons c cs =>
      cases f with
      | zero => simp at hf
      | succ f' =>
        cases g with
        | zero => simp at hg
        | succ g' =>
          simp only [sepReplAux]
          cases hts : trySep sep (c :: cs) with
          | some rest =>
            have hlen := trySep_length hts
            simp only [List.length_cons] at *
            rw [ih f' g' rest (by omega) (by omega) (by omega)]
          | none =>
            simp only [List.length_cons] at *
            rw [ih f' g' cs (by omega) (by omega) (by omega)]

theorem sepRepl_nil (sep : Char) (rep : List Char) : sepRepl sep rep [] = [] := rfl

theorem sepRepl_cons (sep : Char) (rep : List Char) (c : Char) (cs : List Char) :
    sepRepl sep rep (c :: cs) =
      match trySep sep (c :: cs) with
      | some rest => rep ++ sepRepl sep rep rest
      | none => c :: sepRepl sep rep cs := by
  show sepReplAux sep rep (c :: cs).length (c :: cs) = _
  simp only [List.length_cons, sepReplAux]
  cases hts : trySep sep (c :: cs) with
  | some rest =>
    have hlen := trySep_length hts
    simp only [List.length_cons] at hlen
    dsimp only
    rw [sepReplAux_congr sep rep rest.length cs.length rest.length rest le_rfl
      (by omega) le_rfl]
    rfl
  | none => rfl

theorem gtToksAux_congr :
    ∀ (n : Nat) (f g : Nat) (l : List Char), l.length ≤ n → l.length ≤ f →
      l.length ≤ g → gtToksAux f l = gtToksAux g l := by
  intro n
  induction n with
  | zero =>
    intro f g l hn _ _
    have : l = [] := List.eq_nil_of_length_eq_zero (by omega)
    subst this
    cases f <;> cases g <;> rfl
  | succ n ih =>
    intro f g l _ hf hg
    cases l with
    | nil => cases f <;> cases g <;> rfl
    | cons c cs =>
      cases f with
      | zero => simp at hf
      | succ f' =>
        cases g with
        | zero => simp at hg
        | succ g' =>
          simp only [gtToksAux]
          cases hts : trySep '>' (c :: cs) with
          | some rest =>
            have hlen := trySep_length hts
            simp only [List.length_cons] at *
            rw [ih f' g' rest (by omega) (by omega) (by omega)]
          | none =>
            simp only [List.length_cons] at *
            rw [ih f' g' cs (by omega) (by omega) (by omega)]

theorem gtToks_nil : gtToks [] = [] := rfl

theorem gtToks_cons (c : Char) (cs : List Char) :
    gtToks (c :: cs) =
      match trySep '>' (c :: cs) with
      | some rest => GTok.tgt :: gtToks rest
      | none =>
        (if c = ',' then GTok.tcm else if isWs c then GTok.tsp else GTok.tch c) ::
          gtToks cs := by
  show gtToksAux (c :: cs).length (c :: cs) = _
  simp only [List.length_cons, gtToksAux]
  cases hts : trySep '>' (c :: cs) with
  | some rest =>
    have hlen := trySep_length hts
    simp only [List.length_cons] at hlen
    dsimp only
    rw [gtToksAux_congr rest.length cs.length rest.length rest le_rfl (by omega) le_rfl]
    rfl
  | none => rfl

theorem gtToks_ne_nil (c : Char) (cs : List Char) : gtToks (c :: cs) ≠ [] := by
  rw [gtToks_cons]
  cases hts : trySep '>' (c :: cs) <;> simp

theorem spaceOnly_sublist {l s : List Char} (hs : s.Sublist l)
    (h : spaceOnly l = true) : spaceOnly s = true := by
  simp only [spaceOnly, List.all_eq_true] at *
  exact fun c hc => h c (hs.subset hc)

theorem spaceOnly_tail {c : Char} {cs : List Char} (h : spaceOnly (c :: cs) = true) :
    spaceOnly cs = true :=
  spaceOnly_sublist (List.sublist_cons_self c cs) h

theorem noDouble_tail : ∀ {c : Char} {cs : List Char},
    noDouble (c :: cs) = true → noDouble cs = true := by
  intro c cs h
  cases cs with
  | nil => rfl
  | cons d ds =>
    simp only [noDouble, Bool.and_eq_true] at h
    exact h.2

theorem noDouble_of_append : ∀ {t s : List Char},
    noDouble (t ++ s) = true → noDouble s = true := by
  intro t
  induction t with
  | nil => exact fun h => h
  | cons c t ih => exact fun h => ih (noDouble_tail h)

theorem dropWhile_isSuffix (p : Char → Bool) : ∀ l : List Char,
    (l.dropWhile p).IsSuffix l := by
  intro l
  induction l with
  | nil => exact List.suffix_rfl
  | cons c cs ih =>
    by_cases hc : p c = true
    · simp only [List.dropWhile, hc]
      exact ih.trans (List.suffix_cons c cs)
    · simp only [List.dropWhile, hc]
      exact List.suffix_rfl

theorem noDouble_dropWhile {l : List Char} (h : noDouble l = true) :
    noDouble (l.dropWhile isWs) = true := by
  obtain ⟨t, ht⟩ := dropWhile_isSuffix isWs l
  exact noDouble_of_append (by rw [ht]; exact h)

theorem noLeadWs_dropWhile : ∀ l : List Char, noLeadWs (l.dropWhile isWs) = true := by
  intro l
  induction l with
  | nil => rfl
  | cons c cs ih =>
    by_cases hc : isWs c = true
    · simp only [List.dropWhile, hc]
      exact ih
    · simp only [List.dropWhile, hc]
      simp only [noLeadWs]
      simp only [Bool.not_eq_true] at hc
      simp [hc]

theorem noLeadWs_of_prefix {t x : List Char} (h : t.IsPrefix x)
    (hx : noLeadWs x = true) : noLeadWs t = true := by
  cases t with
  | nil => rfl
  | cons c cs =>
    obtain ⟨r, hr⟩ := h
    rw [← hr] at hx
    exact hx

theorem noTrailWs_jsTrim (l : List Char) : noTrailWs (jsTrim l) = true := by
  simp only [jsTrim, noTrailWs, List.reverse_reverse]
  exact noLeadWs_dropWhile _

theorem noLeadWs_jsTrim (l : List Char) : noLeadWs (jsTrim l) = true := by
  have hpre : (jsTrim l).IsPrefix (l.dropWhile isWs) := by
    simp only [jsTrim]
    have hs := dropWhile_isSuffix isWs (l.dropWhile isWs).reverse
    rw [← List.reverse_prefix] at hs
    simpa using hs
  exact noLeadWs_of_prefix hpre (noLeadWs_dropWhile l)

theorem spaceOnly_collapseAux : ∀ (x : List Char) (b : Bool),
    spaceOnly (collapseWsAux b x) = true := by
  intro x
  induction x with
  | nil => intro b; rfl
  | cons c cs ih =>
    intro b
    by_cases hc : isWs c = true
    · cases b with
      | true => simp only [collapseWsAux, hc, if_true]; exact ih true
      | false =>
        simp only [collapseWsAux, hc, if_true]
        have hrec := ih true
        simp only [spaceOnly, List.all_cons] at hrec ⊢
        simp [hrec]
    · simp only [collapseWsAux, hc, Bool.false_eq_true, if_false]
      simp only [spaceOnly, List.all_cons, Bool.and_eq_true]
      refine ⟨by simp [hc], ih false⟩

theorem collapse_true_head : ∀ (x : List Char) (c : Char) (cs : List Char),
    collapseWsAux true x = c :: cs → isWs c = false := by
  intro x
  induction x with
  | nil => intro c cs h; simp [collapseWsAux] at h
  | cons a x' ih =>
    intro c cs h
    by_cases ha : isWs a = true
    · simp only [collapseWsAux, ha, if_true] at h
      exact ih c cs h
    · simp only [collapseWsAux, ha, Bool.false_eq_true, if_false, List.cons.injEq] at h
      rw [← h.1]
      simp only [Bool.not_eq_true] at ha
      exact ha

theorem noDouble_collapseAux : ∀ (x : List Char) (b : Bool),
    noDouble (collapseWsAux b x) = true := by
  intro x
  induction x with
  | nil => intro b; rfl
  | cons a x' ih =>
    intro b
    by_cases ha : isWs a = true
    · cases b with
      | true => simpa only [collapseWsAux, ha, if_true] using ih true
      | false =>
        simp only [collapseWsAux, ha, if_true]
        cases hr : collapseWsAux true x' with
        | nil => rfl
        | cons d ds =>
          have hd := collapse_true_head x' d ds hr
          simp only [noDouble, Bool.and_eq_true, Bool.not_eq_true']
          constructor
          · simp [hd]
          · rw [← hr]; exact ih true
    · simp only [collapseWsAux, ha, Bool.false_eq_true, if_false]
      cases hr : collapseWsAux false x' with
      | nil => rfl
      | cons d ds =>
        simp only [noDouble, Bool.and_eq_true, Bool.not_eq_true']
        constructor
        · simp only [Bool.not_eq_true] at ha
          simp [ha]
        · rw [← hr]; exact ih false

theorem noLeadWs_collapse {y : List Char} (h : noLeadWs y = true) :
    noLeadWs (collapseWs y) = true := by
  cases y with
  | nil => rfl
  | cons c cs =>
    simp only [noLeadWs, Bool.not_eq_true'] at h
    simp only [collapseWs, collapseWsAux, h, Bool.false_eq_true, if_false]
    simp [noLeadWs, h]

theorem collapse_snoc : ∀ (z : List Char) (c : Char) (b : Bool), isWs c = false →
    collapseWsAux b (z ++ [c]) = collapseWsAux b z ++ [c] := by
  intro z
  induction z with
  | nil =>
    intro c b hc
    simp [collapseWsAux, hc]
  | cons a z' ih =>
    intro c b hc
    by_cases ha : isWs a = true
    · cases b with
      | true =>
        simp only [List.cons_append, collapseWsAux, ha, if_true, List.append_eq]
        exact ih c true hc
      | false =>
        simp only [List.cons_append, collapseWsAux, ha, if_true, List.append_eq]
        rw [ih c true hc]
        simp
    · simp only [List.cons_append, collapseWsAux, ha, Bool.false_eq_true, if_false,
        List.append_eq]
      rw [ih c false hc]

theorem trySep_sublist {sep : Char} {l rest : List Char}
    (h : trySep sep l = some rest) : rest.Sublist l := by
  unfold trySep at h
  rcases hd : l.dropWhile isWs with _ | ⟨c, r⟩ <;> rw [hd] at h
  · simp at h
  · by_cases hc : c = sep
    · simp only [hc, if_true, Option.some.injEq, if_pos] at h
      have h1 : (l.dropWhile isWs).Sublist l := List.dropWhile_sublist isWs
      rw [hd] at h1
      rw [← h]
      exact ((List.dropWhile_sublist isWs).trans (List.sublist_cons_self c r)).trans h1
    · simp [hc] at h

theorem trySep_suffix {sep : Char} {l rest : List Char}
    (h : trySep sep l = some rest) : rest.IsSuffix l := by
  unfold trySep at h
  rcases hd : l.dropWhile isWs with _ | ⟨c, r⟩ <;> rw [hd] at h
  · simp at h
  · by_cases hc : c = sep
    · simp only [hc, if_true, Option.some.injEq, if_pos] at h
      have h1 : (l.dropWhile isWs).IsSuffix l := dropWhile_isSuffix isWs l
      rw [hd] at h1
      rw [← h]
      exact ((dropWhile_isSuffix isWs r).trans (List.suffix_cons c r)).trans h1
    · simp [hc] at h

theorem trySep_noLead {sep : Char} {l rest : List Char}
    (h : trySep sep l = some rest) : noLeadWs rest = true := by
  unfold trySep at h
  rcases hd : l.dropWhile isWs with _ | ⟨c, r⟩ <;> rw [hd] at h
  · simp at h
  · by_cases hc : c = sep
    · simp only [hc, if_true, Option.some.injEq, if_pos] at h
      rw [← h]
      exact noLeadWs_dropWhile r
    · simp [hc] at h

theorem noTrailWs_of_suffix {s l : List Char} (hs : s.IsSuffix l)
    (h : noTrailWs l = true) : noTrailWs s = true := by
  unfold noTrailWs at *
  refine noLeadWs_of_prefix ?_ h
  rw [← List.reverse_suffix]
  simpa using hs

theorem noTrailWs_tail {c : Char} {cs : List Char} (h : noTrailWs (c :: cs) = true) :
    noTrailWs cs = true :=
  noTrailWs_of_suffix (List.suffix_cons c cs) h

theorem trySep_none_not_gt {cs : List Char} {c : Char}
    (h : trySep '>' (c :: cs) = none) : ¬(c = '>') := by
  intro hc
  subst hc
  unfold trySep at h
  have : isWs '>' = false := by decide
  simp [List.dropWhile, this] at h

theorem trySep_ws_shift {c : Char} {cs : List Char} (hw : isWs c = true) :
    trySep '>' (c :: cs) = trySep '>' cs := by
  unfold trySep
  simp [List.dropWhile, hw]

theorem gtRepl_eq_gOut : ∀ (n : Nat) (w : List Char), w.length ≤ n →
    spaceOnly w = true → sepRepl '>' [' ', '>', ' '] w = gOut (gtToks w) := by
  intro n
  induction n with
  | zero =>
    intro w hn _
    have : w = [] := List.eq_nil_of_length_eq_zero (by omega)
    subst this
    rfl
  | succ n ih =>
    intro w hn hso
    cases w with
    | nil => rfl
    | cons c cs =>
      rw [sepRepl_cons, gtToks_cons]
      cases hts : trySep '>' (c :: cs) with
      | some rest =>
        have hlen := trySep_length hts
        have hsr : spaceOnly rest = true := spaceOnly_sublist (trySep_sublist hts) hso
        simp only [List.length_cons] at hlen hn
        dsimp only
        rw [ih rest (by omega) hsr]
        rfl
      | none =>
        simp only [List.length_cons] at hn
        dsimp only
        rw [ih cs (by omega) (spaceOnly_tail hso)]
        by_cases hc : c = ','
        · simp [hc, gOut]
        · by_cases hw : isWs c = true
          · have hsp : c = ' ' := by
              simp only [spaceOnly, List.all_cons, Bool.and_eq_true] at hso
              rcases hso with ⟨h1, -⟩
              simp only [Bool.or_eq_true, Bool.not_eq_true', decide_eq_true_eq] at h1
              rcases h1 with h1 | h1
              · rw [h1] at hw; cases hw
              · exact h1
            simp [hc, hw, gOut, hsp]
          · simp [hc, hw, gOut]

theorem headOk_gtToks {w : List Char} (h : noLeadWs w = true) :
    headOk (gtToks w) = true := by
  cases w with
  | nil => rfl
  | cons c cs =>
    rw [gtToks_cons]
    cases hts : trySep '>' (c :: cs) with
    | some rest => rfl
    | none =>
      simp only [noLeadWs, Bool.not_eq_true'] at h
      simp only [h, Bool.false_eq_true, if_false]
      by_cases hc : c = ',' <;> simp [hc, headOk]

theorem lastTok_cons_of_ne_nil {x : GTok} {R : List GTok} (h : R ≠ []) :
    lastTok (x :: R) = lastTok R := by
  cases R with
  | nil => exact absurd rfl h
  | cons y ys => rfl

theorem lastOk_gtToks : ∀ (n : Nat) (w : List Char), w.length ≤ n →
    noTrailWs w = true → lastOk (gtToks w) = true := by
  intro n
  induction n with
  | zero =>
    intro w hn _
    have : w = [] := List.eq_nil_of_length_eq_zero (by omega)
    subst this
    rfl
  | succ n ih =>
    intro w hn hnt
    cases w with
    | nil => rfl
    | cons c cs =>
      rw [gtToks_cons]
      simp only [List.length_cons] at hn
      cases hts : trySep '>' (c :: cs) with
      | some rest =>
        have hlen := trySep_length hts
        simp only [List.length_cons] at hlen
        have hsuf : noTrailWs rest = true := noTrailWs_of_suffix (trySep_suffix hts) hnt
        dsimp only
        cases hR : gtToks rest with
        | nil => rfl
        | cons t R' =>
          have hih := ih rest (by omega) hsuf
          rw [hR] at hih
          simp only [lastOk] at hih ⊢
          rw [lastTok_cons_of_ne_nil (List.cons_ne_nil t R')]
          exact hih
      | none =>
        dsimp only
        cases cs with
        | nil =>
          have hc : isWs c = false := by
            simpa [noTrailWs, noLeadWs] using hnt
          by_cases h1 : c = ','
          · simp [h1, lastOk, lastTok, gtToks, gtToksAux, hts]
          · simp [h1, hc, lastOk, lastTok, gtToks, gtToksAux, hts]
        | cons c2 cs2 =>
          have hih := ih (c2 :: cs2) (by simp only [List.length_cons] at hn ⊢; omega)
            (noTrailWs_tail hnt)
          simp only [lastOk] at hih ⊢
          rw [lastTok_cons_of_ne_nil (gtToks_ne_nil c2 cs2)]
          exact hih

theorem goodG_tcm (ts : List GTok) : goodG (GTok.tcm :: ts) = goodG ts := rfl

theorem goodG_tch (c : Char) (ts : List GTok) :
    goodG (GTok.tch c :: ts) =
      (!(isWs c) && !(c = '>') && !(c = ',') && goodG ts) := rfl

theorem cOut_tch (c : Char) (ts : List GTok) :
    cOut (GTok.tch c :: ts) = c :: cOut ts := by simp [cOut]

theorem cOut_tsp_tcm (ts : List GTok) :
    cOut (GTok.tsp :: GTok.tcm :: ts) = cOut (GTok.tcm :: ts) := by simp [cOut]

theorem cOut_tsp_nil : cOut [GTok.tsp] = [' '] := by simp [cOut]

theorem cOut_tsp_tch (c : Char) (ts : List GTok) :
    cOut (GTok.tsp :: GTok.tch c :: ts) = ' ' :: cOut (GTok.tch c :: ts) := by
  simp [cOut]

theorem cOut_tsp_tsp (ts : List GTok) :
    cOut (GTok.tsp :: GTok.tsp :: ts) = ' ' :: cOut (GTok.tsp :: ts) := by
  simp [cOut]

theorem cOut_tsp_tgt (ts : List GTok) :
    cOut (GTok.tsp :: GTok.tgt :: ts) = ' ' :: cOut (GTok.tgt :: ts) := by
  simp [cOut]

theorem cOut_tcm_tsp (ts : List GTok) :
    cOut (GTok.tcm :: GTok.tsp :: ts) = cOut (GTok.tcm :: ts) := by simp [cOut]

theorem cOut_tcm_tgt (ts : List GTok) :
    cOut (GTok.tcm :: GTok.tgt :: ts) = ',' :: ' ' :: '>' :: gtTail ts := by
  simp [cOut]

theorem cOut_tcm_nil : cOut [GTok.tcm] = [',', ' '] := by simp [cOut, gtTail]

theorem cOut_tcm_tch (c : Char) (ts : List GTok) :
    cOut (GTok.tcm :: GTok.tch c :: ts) = ',' :: ' ' :: cOut (GTok.tch c :: ts) := by
  simp [cOut]

theorem cOut_tcm_tcm (ts : List GTok) :
    cOut (GTok.tcm :: GTok.tcm :: ts) = ',' :: ' ' :: cOut (GTok.tcm :: ts) := by
  simp [cOut]

theorem cOut_tgt (ts : List GTok) :
    cOut (GTok.tgt :: ts) = ' ' :: '>' :: gtTail ts := by simp [cOut]

theorem gtTail_tcm (ts : List GTok) :
    gtTail (GTok.tcm :: ts) = cOut (GTok.tcm :: ts) := by simp [gtTail]

theorem gtTail_nil : gtTail [] = [' '] := by simp [gtTail, cOut]

theorem gtTail_tch (c : Char) (ts : List GTok) :
    gtTail (GTok.tch c :: ts) = ' ' :: cOut (GTok.tch c :: ts) := by simp [gtTail]

theorem gtTail_tsp (ts : List GTok) :
    gtTail (GTok.tsp :: ts) = ' ' :: cOut (GTok.tsp :: ts) := by simp [gtTail]

theorem gtTail_tgt (ts : List GTok) :
    gtTail (GTok.tgt :: ts) = ' ' :: cOut (GTok.tgt :: ts) := by simp [gtTail]

theorem cOutK_tch (c : Char) (ts : List GTok) :
    cOutK (GTok.tch c :: ts) = c :: cOutK ts := by simp [cOutK]

theorem cOutK_tsp_tcm (ts : List GTok) :
    cOutK (GTok.tsp :: GTok.tcm :: ts) = cOutK (GTok.tcm :: ts) := by simp [cOutK]

theorem cOutK_tsp_nil : cOutK [GTok.tsp] = [' '] := by simp [cOutK]

theorem cOutK_tsp_tch (c : Char) (ts : List GTok) :
    cOutK (GTok.tsp :: GTok.tch c :: ts) = ' ' :: cOutK (GTok.tch c :: ts) := by
  simp [cOutK]

theorem cOutK_tsp_tsp (ts : List GTok) :
    cOutK (GTok.tsp :: GTok.tsp :: ts) = ' ' :: cOutK (GTok.tsp :: ts) := by
  simp [cOutK]

theorem cOutK_tsp_tgt (ts : List GTok) :
    cOutK (GTok.tsp :: GTok.tgt :: ts) = ' ' :: cOutK (GTok.tgt :: ts) := by
  simp [cOutK]

theorem cOutK_tcm_tsp (ts : List GTok) :
    cOutK (GTok.tcm :: GTok.tsp :: ts) = cOutK (GTok.tcm :: ts) := by simp [cOutK]

theorem cOutK_tcm_tgt (ts : List GTok) :
    cOutK (GTok.tcm :: GTok.tgt :: ts) = ',' :: ' ' :: '>' :: gtTailK ts := by
  simp [cOutK]

theorem cOutK_tcm_nil : cOutK [GTok.tcm] = [',', ' '] := by simp [cOutK, gtTailK]

theorem cOutK_tcm_tch (c : Char) (ts : List GTok) :
    cOutK (GTok.tcm :: GTok.tch c :: ts) = ',' :: ' ' :: cOutK (GTok.tch c :: ts) := by
  simp [cOutK]

theorem cOutK_tcm_tcm (ts : List GTok) :
    cOutK (GTok.tcm :: GTok.tcm :: ts) = ',' :: ' ' :: cOutK (GTok.tcm :: ts) := by
  simp [cOutK]

theorem cOutK_tgt (ts : List GTok) :
    cOutK (GTok.tgt :: ts) = ' ' :: '>' :: gtTailK ts := by simp [cOutK]

theorem gtTailK_tcm (ts : List GTok) :
    gtTailK (GTok.tcm :: ts) = cOutK (GTok.tcm :: ts) := by simp [gtTailK]

theorem gtTailK_tgt (ts : List GTok) :
    gtTailK (GTok.tgt :: ts) = ' ' :: '>' :: gtTailK ts := by simp [gtTailK]

theorem gtTailK_nil : gtTailK [] = [' '] := by simp [gtTailK, cOutK]

theorem gtTailK_tch (c : Char) (ts : List GTok) :
    gtTailK (GTok.tch c :: ts) = ' ' :: cOutK (GTok.tch c :: ts) := by simp [gtTailK]

theorem gtTailK_tsp (ts : List GTok) :
    gtTailK (GTok.tsp :: ts) = ' ' :: cOutK (GTok.tsp :: ts) := by simp [gtTailK]

theorem cnf_tch (c : Char) (ts : List GTok) :
    cnf (GTok.tch c :: ts) = GTok.tch c :: cnf ts := by simp [cnf]

theorem cnf_tsp_tcm (ts : List GTok) :
    cnf (GTok.tsp :: GTok.tcm :: ts) = cnf (GTok.tcm :: ts) := by simp [cnf]

theorem cnf_tsp_nil : cnf [GTok.tsp] = [GTok.tsp] := by simp [cnf]

theorem cnf_tsp_tch (c : Char) (ts : List GTok) :
    cnf (GTok.tsp :: GTok.tch c :: ts) = GTok.tsp :: cnf (GTok.tch c :: ts) := by
  simp [cnf]

theorem cnf_tsp_tsp (ts : List GTok) :
    cnf (GTok.tsp :: GTok.tsp :: ts) = GTok.tsp :: cnf (GTok.tsp :: ts) := by
  simp [cnf]

theorem cnf_tsp_tgt (ts : List GTok) :
    cnf (GTok.tsp :: GTok.tgt :: ts) = GTok.tsp :: cnf (GTok.tgt :: ts) := by
  simp [cnf]

theorem cnf_tcm_tsp (ts : List GTok) :
    cnf (GTok.tcm :: GTok.tsp :: ts) = cnf (GTok.tcm :: ts) := by simp [cnf]

theorem cnf_tcm_tch (c : Char) (ts : List GTok) :
    cnf (GTok.tcm :: GTok.tch c :: ts) =
      GTok.tcm :: GTok.tsp :: cnf (GTok.tch c :: ts) := by simp [cnf]

theorem cnf_tcm_tcm (ts : List GTok) :
    cnf (GTok.tcm :: GTok.tcm :: ts) =
      GTok.tcm :: GTok.tsp :: cnf (GTok.tcm :: ts) := by simp [cnf]

theorem cnf_tcm_nil : cnf [GTok.tcm] = [GTok.tcm] := by simp [cnf]

theorem cnf_tcm_tgt (ts : List GTok) :
    cnf (GTok.tcm :: GTok.tgt :: ts) = GTok.tcm :: cnf (GTok.tgt :: ts) := by
  simp [cnf]

theorem cnf_tgt (ts : List GTok) :
    cnf (GTok.tgt :: ts) = GTok.tgt :: cnf ts := by simp [cnf]

theorem goodG_gtToks : ∀ (n : Nat) (w : List Char), w.length ≤ n →
    spaceOnly w = true → noDouble w = true → goodG (gtToks w) = true := by
  intro n
  induction n with
  | zero =>
    intro w hn _ _
    have : w = [] := List.eq_nil_of_length_eq_zero (by omega)
    subst this
    rfl
  | succ n ih =>
    intro w hn hso hnd
    cases w with
    | nil => rfl
    | cons c cs =>
      rw [gtToks_cons]
      simp only [List.length_cons] at hn
      cases hts : trySep '>' (c :: cs) with
      | some rest =>
        have hlen := trySep_length hts
        simp only [List.length_cons] at hlen
        have hso2 := spaceOnly_sublist (trySep_sublist hts) hso
        have hnd2 : noDouble rest = true := by
          obtain ⟨p, hp⟩ := trySep_suffix hts
          have h0 := hnd
          rw [← hp] at h0
          exact noDouble_of_append h0
        have hg := ih rest (by omega) hso2 hnd2
        have hok := headOk_gtToks (trySep_noLead hts)
        dsimp only
        cases hR : gtToks rest with
        | nil => rfl
        | cons t R' =>
          rw [hR] at hg hok
          cases t with
          | tsp => simp [headOk] at hok
          | tch c2 => exact hg
          | tgt => exact hg
          | tcm => exact hg
      | none =>
        dsimp only
        by_cases h1 : c = ','
        · rw [if_pos h1, goodG_tcm]
          exact ih cs (by omega) (spaceOnly_tail hso) (noDouble_tail hnd)
        · rw [if_neg h1]
          by_cases hw : isWs c = true
          · rw [if_pos hw]
            cases cs with
            | nil => rfl
            | cons c2 cs2 =>
              have hts2 : trySep '>' (c2 :: cs2) = none := by
                rw [← trySep_ws_shift hw]
                exact hts
              have hih := ih (c2 :: cs2) (by simp only [List.length_cons] at *; omega)
                (spaceOnly_tail hso) (noDouble_tail hnd)
              rw [gtToks_cons, hts2] at hih ⊢
              dsimp only at hih ⊢
              have hw2 : isWs c2 = false := by
                simp only [noDouble, Bool.and_eq_true, Bool.not_eq_true'] at hnd
                rcases hnd with ⟨hnd1, -⟩
                cases h2 : isWs c2
                · rfl
                · rw [hw, h2] at hnd1
                  cases hnd1
              by_cases hc2 : c2 = ','
              · rw [if_pos hc2] at hih ⊢
                exact hih
              · rw [if_neg hc2, if_neg (by rw [hw2]; exact Bool.false_ne_true)] at hih ⊢
                exact hih
          · rw [if_neg hw]
            have hgt : ¬(c = '>') := trySep_none_not_gt hts
            have hih := ih cs (by omega) (spaceOnly_tail hso) (noDouble_tail hnd)
            simp only [Bool.not_eq_true] at hw
            simp [goodG_tch, hih, h1, hgt, hw]

theorem cOut_nil : cOut [] = [] := by simp [cOut]

theorem cOutK_nil : cOutK [] = [] := by simp [cOutK]

theorem cnf_nil : cnf [] = [] := by simp [cnf]

theorem goodG_tail : ∀ {t : GTok} {ts : List GTok}, goodG (t :: ts) = true →
    goodG ts = true := by
  intro t ts h
  cases t with
  | tch c =>
    rw [goodG_tch] at h
    simp only [Bool.and_eq_true] at h
    exact h.2
  | tcm => exact h
  | tsp =>
    cases ts with
    | nil => rfl
    | cons t2 ts2 =>
      cases t2 with
      | tsp => exact Bool.noConfusion h
      | tgt => exact Bool.noConfusion h
      | tch c2 => exact h
      | tcm => exact h
  | tgt =>
    cases ts with
    | nil => rfl
    | cons t2 ts2 =>
      cases t2 with
      | tsp => exact Bool.noConfusion h
      | tgt => exact h
      | tch c2 => exact h
      | tcm => exact h

theorem headOk_of_goodG_tgt {ts2 : List GTok} (hg : goodG (GTok.tgt :: ts2) = true) :
    headOk ts2 = true := by
  cases ts2 with
  | nil => rfl
  | cons t2 ts3 =>
    cases t2 with
    | tsp => exact Bool.noConfusion hg
    | tch c => rfl
    | tgt => rfl
    | tcm => rfl

theorem trySep_none_head {sep c : Char} (X : List Char) (hw : isWs c = false)
    (hne : ¬(c = sep)) : trySep sep (c :: X) = none := by
  unfold trySep
  simp [List.dropWhile, hw, hne]

theorem trySep_some_head {sep : Char} (X : List Char) (hw : isWs sep = false) :
    trySep sep (sep :: X) = some (X.dropWhile isWs) := by
  unfold trySep
  simp [List.dropWhile, hw]

theorem trySep_ws_cons {sep c : Char} (cs : List Char) (hw : isWs c = true) :
    trySep sep (c :: cs) = trySep sep cs := by
  unfold trySep
  simp [List.dropWhile, hw]

theorem commaRepl_eq : ∀ (n : Nat) (ts : List GTok), ts.length ≤ n →
    goodG ts = true →
    (sepRepl ',' [',', ' '] (gOut ts) = cOut ts) ∧
    (headOk ts = true → sepRepl ',' [',', ' '] (' ' :: gOut ts) = gtTail ts) ∧
    (',' :: ' ' :: sepRepl ',' [',', ' '] ((gOut ts).dropWhile isWs) =
      cOut (GTok.tcm :: ts)) := by
  intro n
  induction n with
  | zero =>
    intro ts hn _
    have hts : ts = [] := List.eq_nil_of_length_eq_zero (by omega)
    subst hts
    refine ⟨by rw [cOut_nil]; rfl, fun _ => by rw [gtTail_nil]; rfl,
      by rw [cOut_tcm_nil]; rfl⟩
  | succ n ih =>
    intro ts hn hg
    have hQA : sepRepl ',' [',', ' '] (gOut ts) = cOut ts := by
      cases ts with
      | nil => rw [cOut_nil]; rfl
      | cons t ts2 =>
        have hg2 : goodG ts2 = true := goodG_tail hg
        have hlen : ts2.length ≤ n := by
          simp only [List.length_cons] at hn
          omega
        cases t with
        | tch c =>
          have hh := hg
          rw [goodG_tch] at hh
          simp only [Bool.and_eq_true, Bool.not_eq_true',
            decide_eq_false_iff_not] at hh
          simp only [gOut]
          rw [sepRepl_cons, trySep_none_head _ hh.1.1.1 hh.1.2]
          dsimp only
          rw [(ih ts2 hlen hg2).1, cOut_tch]
        | tcm =>
          simp only [gOut]
          rw [sepRepl_cons, trySep_some_head _ (by decide)]
          dsimp only
          exact (ih ts2 hlen hg2).2.2
        | tsp =>
          cases ts2 with
          | nil => rw [cOut_tsp_nil]; rfl
          | cons t2 ts3 =>
            have hlen3 : ts3.length ≤ n := by
              simp only [List.length_cons] at hn
              omega
            cases t2 with
            | tsp => exact Bool.noConfusion hg
            | tgt => exact Bool.noConfusion hg
            | tcm =>
              simp only [gOut]
              rw [sepRepl_cons, trySep_ws_cons _ (by decide),
                trySep_some_head _ (by decide)]
              dsimp only
              rw [cOut_tsp_tcm]
              exact (ih ts3 hlen3 (goodG_tail hg2)).2.2
            | tch c2 =>
              have hh := hg2
              rw [goodG_tch] at hh
              simp only [Bool.and_eq_true, Bool.not_eq_true',
                decide_eq_false_iff_not] at hh
              simp only [gOut]
              rw [sepRepl_cons, trySep_ws_cons _ (by decide),
                trySep_none_head _ hh.1.1.1 hh.1.2]
              dsimp only
              rw [cOut_tsp_tch]
              have hA2 := (ih (GTok.tch c2 :: ts3)
                (by simp only [List.length_cons] at hn ⊢; omega) hg2).1
              simp only [gOut] at hA2
              rw [hA2]
        | tgt =>
          have hok2 : headOk ts2 = true := headOk_of_goodG_tgt hg
          simp only [gOut]
          rw [sepRepl_cons, trySep_ws_cons _ (by decide),
            trySep_none_head _ (by decide) (by decide)]
          dsimp only
          rw [sepRepl_cons, trySep_none_head _ (by decide) (by decide)]
          dsimp only
          rw [cOut_tgt, (ih ts2 hlen hg2).2.1 hok2]
    have hQB : headOk ts = true →
        sepRepl ',' [',', ' '] (' ' :: gOut ts) = gtTail ts := by
      intro hok
      cases ts with
      | nil => rw [gtTail_nil]; rfl
      | cons t ts2 =>
        have hg2 : goodG ts2 = true := goodG_tail hg
        have hlen : ts2.length ≤ n := by
          simp only [List.length_cons] at hn
          omega
        cases t with
        | tsp => exact Bool.noConfusion hok
        | tcm =>
          simp only [gOut]
          rw [sepRepl_cons, trySep_ws_cons _ (by decide),
            trySep_some_head _ (by decide)]
          dsimp only
          rw [gtTail_tcm]
          exact (ih ts2 hlen hg2).2.2
        | tch c =>
          have hh := hg
          rw [goodG_tch] at hh
          simp only [Bool.and_eq_true, Bool.not_eq_true',
            decide_eq_false_iff_not] at hh
          simp only [gOut]
          rw [sepRepl_cons, trySep_ws_cons _ (by decide),
            trySep_none_head _ hh.1.1.1 hh.1.2]
          dsimp only
          rw [gtTail_tch]
          have hA := hQA
          simp only [gOut] at hA
          rw [hA]
        | tgt =>
          simp only [gOut]
          rw [sepRepl_cons, trySep_ws_cons _ (by decide),
            trySep_ws_cons _ (by decide),
            trySep_none_head _ (by decide) (by decide)]
          dsimp only
          rw [gtTail_tgt]
          have hA := hQA
          simp only [gOut] at hA
          rw [hA]
    have hQC : ',' :: ' ' :: sepRepl ',' [',', ' '] ((gOut ts).dropWhile isWs) =
        cOut (GTok.tcm :: ts) := by
      cases ts with
      | nil => rw [cOut_tcm_nil]; rfl
      | cons t ts2 =>
        have hg2 : goodG ts2 = true := goodG_tail hg
        have hlen : ts2.length ≤ n := by
          simp only [List.length_cons] at hn
          omega
        cases t with
        | tsp =>
          simp only [gOut]
          rw [show ((' ' :: gOut ts2).dropWhile isWs) = (gOut ts2).dropWhile isWs
            from by simp [List.dropWhile, (by decide : isWs ' ' = true)]]
          rw [cOut_tcm_tsp]
          exact (ih ts2 hlen hg2).2.2
        | tch c =>
          have hh := hg
          rw [goodG_tch] at hh
          simp only [Bool.and_eq_true, Bool.not_eq_true',
            decide_eq_false_iff_not] at hh
          simp only [gOut]
          rw [show ((c :: gOut ts2).dropWhile isWs) = c :: gOut ts2
            from by simp [List.dropWhile, hh.1.1.1]]
          rw [sepRepl_cons, trySep_none_head _ hh.1.1.1 hh.1.2]
          dsimp only
          rw [(ih ts2 hlen hg2).1, cOut_tcm_tch, cOut_tch]
        | tcm =>
          simp only [gOut]
          rw [show ((',' :: gOut ts2).dropWhile isWs) = ',' :: gOut ts2
            from by simp [List.dropWhile, (by decide : isWs ',' = false)]]
          rw [sepRepl_cons, trySep_some_head _ (by decide)]
          dsimp only
          rw [cOut_tcm_tcm, ← (ih ts2 hlen hg2).2.2]
          rfl
        | tgt =>
          have hok2 : headOk ts2 = true := headOk_of_goodG_tgt hg
          simp only [gOut]
          rw [show ((' ' :: '>' :: ' ' :: gOut ts2).dropWhile isWs) =
              '>' :: ' ' :: gOut ts2
            from by simp [List.dropWhile, (by decide : isWs ' ' = true),
              (by decide : isWs '>' = false)]]
          rw [sepRepl_cons, trySep_none_head _ (by decide) (by decide)]
          dsimp only
          rw [(ih ts2 hlen hg2).2.1 hok2, cOut_tcm_tgt]
    exact ⟨hQA, hQB, hQC⟩

theorem cwa_ws_true (X : List Char) :
    collapseWsAux true (' ' :: X) = collapseWsAux true X := by
  simp [collapseWsAux, (by decide : isWs ' ' = true)]

theorem cwa_ws_false (X : List Char) :
    collapseWsAux false (' ' :: X) = ' ' :: collapseWsAux true X := by
  simp [collapseWsAux, (by decide : isWs ' ' = true)]

theorem cwa_nonws (b : Bool) (X : List Char) (c : Char) (hc : isWs c = false) :
    collapseWsAux b (c :: X) = c :: collapseWsAux false X := by
  simp [collapseWsAux, hc]

theorem spell_nil : spell [] = cOutK [] := rfl

theorem spell_tch (c : Char) (ts : List GTok) :
    spell (GTok.tch c :: ts) = cOutK (GTok.tch c :: ts) := rfl

theorem spell_tsp (ts : List GTok) :
    spell (GTok.tsp :: ts) = cOutK (GTok.tsp :: ts) := rfl

theorem spell_tcm (ts : List GTok) :
    spell (GTok.tcm :: ts) = cOutK (GTok.tcm :: ts) := rfl

theorem spell_tgt (ts : List GTok) :
    spell (GTok.tgt :: ts) = '>' :: gtTailK ts := rfl

theorem collapse_cOut_eq : ∀ (n : Nat) (ts : List GTok), ts.length ≤ n →
    goodG ts = true →
    (collapseWsAux false (cOut ts) = cOutK ts) ∧
    (headOk ts = true → collapseWsAux true (cOut ts) = spell ts) ∧
    (headOk ts = true → collapseWsAux false (gtTail ts) = gtTailK ts) := by
  intro n
  induction n with
  | zero =>
    intro ts hn _
    have hts : ts = [] := List.eq_nil_of_length_eq_zero (by omega)
    subst hts
    refine ⟨by rw [cOut_nil, cOutK_nil]; rfl,
      fun _ => by rw [cOut_nil, spell_nil, cOutK_nil]; rfl,
      fun _ => by rw [gtTail_nil, gtTailK_nil]; rfl⟩
  | succ n ih =>
    intro ts hn hg
    have hQA : collapseWsAux false (cOut ts) = cOutK ts := by
      cases ts with
      | nil => rw [cOut_nil, cOutK_nil]; rfl
      | cons t ts2 =>
        have hg2 : goodG ts2 = true := goodG_tail hg
        have hlen : ts2.length ≤ n := by
          simp only [List.length_cons] at hn
          omega
        cases t with
        | tch c =>
          have hh := hg
          rw [goodG_tch] at hh
          simp only [Bool.and_eq_true, Bool.not_eq_true',
            decide_eq_false_iff_not] at hh
          rw [cOut_tch, cwa_nonws _ _ _ hh.1.1.1, (ih ts2 hlen hg2).1, cOutK_tch]
        | tsp =>
          cases ts2 with
          | nil => rw [cOut_tsp_nil, cOutK_tsp_nil, cwa_ws_false]; rfl
          | cons t2 ts3 =>
            cases t2 with
            | tsp => exact Bool.noConfusion hg
            | tgt => exact Bool.noConfusion hg
            | tcm =>
              rw [cOut_tsp_tcm, cOutK_tsp_tcm]
              exact (ih (GTok.tcm :: ts3)
                (by simp only [List.length_cons] at hn ⊢; omega) hg2).1
            | tch c2 =>
              rw [cOut_tsp_tch, cwa_ws_false,
                (ih (GTok.tch c2 :: ts3)
                  (by simp only [List.length_cons] at hn ⊢; omega) hg2).2.1 rfl,
                spell_tch, cOutK_tsp_tch]
        | tcm =>
          cases ts2 with
          | nil => rw [cOut_tcm_nil, cOutK_tcm_nil]; rfl
          | cons t2 ts3 =>
            cases t2 with
            | tsp =>
              rw [cOut_tcm_tsp, cOutK_tcm_tsp]
              exact (ih (GTok.tcm :: ts3)
                (by simp only [List.length_cons] at hn ⊢; omega)
                (by rw [goodG_tcm]; exact goodG_tail hg2)).1
            | tch c2 =>
              rw [cOut_tcm_tch, cwa_nonws _ _ _ (by decide), cwa_ws_false,
                (ih (GTok.tch c2 :: ts3)
                  (by simp only [List.length_cons] at hn ⊢; omega) hg2).2.1 rfl,
                spell_tch, cOutK_tcm_tch]
            | tcm =>
              rw [cOut_tcm_tcm, cwa_nonws _ _ _ (by decide), cwa_ws_false,
                (ih (GTok.tcm :: ts3)
                  (by simp only [List.length_cons] at hn ⊢; omega) hg2).2.1 rfl,
                spell_tcm, cOutK_tcm_tcm]
            | tgt =>
              rw [cOut_tcm_tgt, cwa_nonws _ _ _ (by decide), cwa_ws_false,
                cwa_nonws _ _ _ (by decide),
                (ih ts3 (by simp only [List.length_cons] at hn ⊢; omega)
                  (goodG_tail hg2)).2.2 (headOk_of_goodG_tgt hg2),
                cOutK_tcm_tgt]
        | tgt =>
          rw [cOut_tgt, cwa_ws_false, cwa_nonws _ _ _ (by decide),
            (ih ts2 hlen hg2).2.2 (headOk_of_goodG_tgt hg), cOutK_tgt]
    have hQB : headOk ts = true → collapseWsAux true (cOut ts) = spell ts := by
      intro hok
      cases ts with
      | nil => rw [cOut_nil, spell_nil, cOutK_nil]; rfl
      | cons t ts2 =>
        have hg2 : goodG ts2 = true := goodG_tail hg
        have hlen : ts2.length ≤ n := by
          simp only [List.length_cons] at hn
          omega
        cases t with
        | tsp => exact Bool.noConfusion hok
        | tch c =>
          have hh := hg
          rw [goodG_tch] at hh
          simp only [Bool.and_eq_true, Bool.not_eq_true',
            decide_eq_false_iff_not] at hh
          rw [cOut_tch, cwa_nonws _ _ _ hh.1.1.1, (ih ts2 hlen hg2).1,
            spell_tch, cOutK_tch]
        | tgt =>
          rw [cOut_tgt, cwa_ws_true, cwa_nonws _ _ _ (by decide),
            (ih ts2 hlen hg2).2.2 (headOk_of_goodG_tgt hg), spell_tgt]
        | tcm =>
          cases ts2 with
          | nil => rw [cOut_tcm_nil, spell_tcm, cOutK_tcm_nil]; rfl
          | cons t2 ts3 =>
            cases t2 with
            | tsp =>
              rw [cOut_tcm_tsp, spell_tcm, cOutK_tcm_tsp,
                (ih (GTok.tcm :: ts3)
                  (by simp only [List.length_cons] at hn ⊢; omega)
                  (by rw [goodG_tcm]; exact goodG_tail hg2)).2.1 rfl,
                spell_tcm]
            | tch c2 =>
              rw [cOut_tcm_tch, cwa_nonws _ _ _ (by decide), cwa_ws_false,
                (ih (GTok.tch c2 :: ts3)
                  (by simp only [List.length_cons] at hn ⊢; omega) hg2).2.1 rfl,
                spell_tch, spell_tcm, cOutK_tcm_tch]
            | tcm =>
              rw [cOut_tcm_tcm, cwa_nonws _ _ _ (by decide), cwa_ws_false,
                (ih (GTok.tcm :: ts3)
                  (by simp only [List.length_cons] at hn ⊢; omega) hg2).2.1 rfl,
                spell_tcm, spell_tcm, cOutK_tcm_tcm]
            | tgt =>
              rw [cOut_tcm_tgt, cwa_nonws _ _ _ (by decide), cwa_ws_false,
                cwa_nonws _ _ _ (by decide),
                (ih ts3 (by simp only [List.length_cons] at hn ⊢; omega)
                  (goodG_tail hg2)).2.2 (headOk_of_goodG_tgt hg2),
                spell_tcm, cOutK_tcm_tgt]
    have hQC : headOk ts = true → collapseWsAux false (gtTail ts) = gtTailK ts := by
      intro hok
      cases ts with
      | nil => rw [gtTail_nil, gtTailK_nil]; rfl
      | cons t ts2 =>
        have hg2 : goodG ts2 = true := goodG_tail hg
        have hlen : ts2.length ≤ n := by
          simp only [List.length_cons] at hn
          omega
        cases t with
        | tsp => exact Bool.noConfusion hok
        | tcm =>
          rw [gtTail_tcm, gtTailK_tcm]
          exact hQA
        | tch c =>
          rw [gtTail_tch, cwa_ws_false, hQB rfl, spell_tch, gtTailK_tch]
        | tgt =>
          rw [gtTail_tgt, cOut_tgt, cwa_ws_false, cwa_ws_true,
            cwa_nonws _ _ _ (by decide),
            (ih ts2 hlen hg2).2.2 (headOk_of_goodG_tgt hg), gtTailK_tgt]
    exact ⟨hQA, hQB, hQC⟩

theorem dropWhile_noLead {l : List Char} (h : noLeadWs l = true) :
    l.dropWhile isWs = l := by
  cases l with
  | nil => rfl
  | cons c cs =>
    simp only [noLeadWs, Bool.not_eq_true'] at h
    simp [List.dropWhile, h]

theorem stripLead_eq_self {l : List Char} (h : noLeadWs l = true) : stripLead l = l :=
  dropWhile_noLead h

theorem dropWhile_append_all {p : Char → Bool} : ∀ {a : List Char} (b : List Char),
    a.all p = true → (a ++ b).dropWhile p = b.dropWhile p := by
  intro a
  induction a with
  | nil => intro b _; rfl
  | cons c cs ih =>
    intro b h
    simp only [List.all_cons, Bool.and_eq_true] at h
    simp only [List.cons_append, List.dropWhile, h.1]
    exact ih b h.2

theorem all_takeWhile_isWs : ∀ l : List Char, (l.takeWhile isWs).all isWs = true := by
  intro l
  induction l with
  | nil => rfl
  | cons c cs ih =>
    by_cases hc : isWs c = true
    · simp [List.takeWhile, hc, ih]
    · simp [List.takeWhile, hc]

theorem noTrailWs_stripTrail (z : List Char) : noTrailWs (stripTrail z) = true := by
  simp only [stripTrail, noTrailWs, List.reverse_reverse]
  exact noLeadWs_dropWhile _

theorem stripTrail_append_ws {y w : List Char} (hy : noTrailWs y = true)
    (hw : w.all isWs = true) : stripTrail (y ++ w) = y := by
  simp only [stripTrail, List.reverse_append]
  rw [dropWhile_append_all y.reverse (by simpa using hw), dropWhile_noLead hy]
  exact List.reverse_reverse y

theorem stripTrail_decomp (z : List Char) :
    z = stripTrail z ++ (z.reverse.takeWhile isWs).reverse ∧
    ((z.reverse.takeWhile isWs).reverse).all isWs = true := by
  constructor
  · simp only [stripTrail]
    rw [← List.reverse_append, List.takeWhile_append_dropWhile, List.reverse_reverse]
  · simpa using all_takeWhile_isWs z.reverse

theorem collapse_ws_all : ∀ w : List Char, w.all isWs = true →
    collapseWsAux true w = [] ∧
    collapseWsAux false w = (if w = [] then [] else [' ']) := by
  intro w
  induction w with
  | nil => exact fun _ => ⟨rfl, rfl⟩
  | cons c w' ih =>
    intro h
    simp only [List.all_cons, Bool.and_eq_true] at h
    obtain ⟨hc, hw'⟩ := h
    refine ⟨?_, ?_⟩
    · simp only [collapseWsAux, hc, if_true]
      exact (ih hw').1
    · simp only [collapseWsAux, hc, if_true]
      rw [(ih hw').1]
      simp

theorem collapse_append_ws : ∀ (y : List Char) (b : Bool) (w : List Char),
    noTrailWs y = true → w.all isWs = true → (y ≠ [] ∨ b = false) →
    collapseWsAux b (y ++ w) =
      collapseWsAux b y ++ (if w = [] then [] else [' ']) := by
  intro y
  induction y with
  | nil =>
    intro b w _ hw hb
    have hbf : b = false := by
      rcases hb with h | h
      · exact absurd rfl h
      · exact h
    subst hbf
    simp only [List.nil_append]
    rw [(collapse_ws_all w hw).2]
    rfl
  | cons c y' ih =>
    intro b w hy hw _
    by_cases hc : isWs c = true
    · have hy' : y' ≠ [] := by
        intro he
        subst he
        simp only [noTrailWs, List.reverse_cons, List.reverse_nil, List.nil_append,
          noLeadWs, Bool.not_eq_true'] at hy
        rw [hc] at hy
        cases hy
      have hrec := ih true w (noTrailWs_tail hy) hw (Or.inl hy')
      cases b
      · simp only [List.cons_append, collapseWsAux, hc, if_true, List.append_eq,
          Bool.false_eq_true, if_false]
        rw [hrec]
      · simp only [List.cons_append, collapseWsAux, hc, if_true, List.append_eq]
        rw [hrec]
    · have hrec := ih false w (noTrailWs_tail hy) hw (Or.inr rfl)
      simp only [List.cons_append, collapseWsAux, hc, Bool.false_eq_true, if_false,
        List.append_eq]
      rw [hrec]

theorem collapseWs_append_ws {y w : List Char} (hy : noTrailWs y = true)
    (hw : w.all isWs = true) :
    collapseWs (y ++ w) = collapseWs y ++ (if w = [] then [] else [' ']) :=
  collapse_append_ws y false w hy hw (Or.inr rfl)

theorem noTrailWs_collapse {y : List Char} (h : noTrailWs y = true) :
    noTrailWs (collapseWs y) = true := by
  cases hyr : y.reverse with
  | nil =>
    have : y = [] := by simpa using congrArg List.reverse hyr
    subst this
    rfl
  | cons c t =>
    have hy : y = t.reverse ++ [c] := by
      have := congrArg List.reverse hyr
      simpa using this
    simp only [noTrailWs, hyr, noLeadWs] at h
    simp only [Bool.not_eq_true'] at h
    rw [hy, collapseWs, collapse_snoc t.reverse c false h]
    simp only [noTrailWs, List.reverse_append, List.reverse_cons, List.reverse_nil,
      List.nil_append, List.singleton_append, noLeadWs]
    simp [h]

theorem collapse_stripTrail_comm (z : List Char) :
    collapseWs (stripTrail z) = stripTrail (collapseWs z) := by
  obtain ⟨hzw, hw⟩ := stripTrail_decomp z
  by_cases hz : stripTrail z = []
  · have hzw' : z = (z.reverse.takeWhile isWs).reverse := by
      conv_lhs => rw [hzw]
      rw [hz, List.nil_append]
    rw [hz]
    conv_rhs => rw [hzw']
    simp only [collapseWs]
    rw [(collapse_ws_all _ hw).2]
    by_cases hwe : (z.reverse.takeWhile isWs).reverse = []
    · rw [if_pos hwe]
      rfl
    · rw [if_neg hwe]
      rfl
  · have hnt := noTrailWs_stripTrail z
    conv_rhs => rw [hzw]
    rw [collapseWs_append_ws hnt hw]
    rw [stripTrail_append_ws (noTrailWs_collapse hnt) (by split <;> decide)]

theorem noLeadWs_cOut_tcm (ts : List GTok) :
    noLeadWs (cOut (GTok.tcm :: ts)) = true := by
  induction ts with
  | nil =>
    rw [cOut_tcm_nil]
    decide
  | cons t ts2 ih =>
    cases t with
    | tsp =>
      rw [cOut_tcm_tsp]
      exact ih
    | tch c =>
      rw [cOut_tcm_tch]
      simp only [noLeadWs]
      decide
    | tcm =>
      rw [cOut_tcm_tcm]
      simp only [noLeadWs]
      decide
    | tgt =>
      rw [cOut_tcm_tgt]
      simp only [noLeadWs]
      decide

theorem collapse_stripLead_cOut {ts : List GTok} (hg : goodG ts = true)
    (hok : headOk ts = true) : collapseWs (stripLead (cOut ts)) = spell ts := by
  cases ts with
  | nil =>
    rw [cOut_nil, spell_nil, cOutK_nil]
    rfl
  | cons t ts2 =>
    cases t with
    | tsp => exact Bool.noConfusion hok
    | tch c =>
      have hh := hg
      rw [goodG_tch] at hh
      simp only [Bool.and_eq_true, Bool.not_eq_true',
        decide_eq_false_iff_not] at hh
      have hnl : noLeadWs (cOut (GTok.tch c :: ts2)) = true := by
        rw [cOut_tch]
        simp [noLeadWs, hh.1.1.1]
      rw [stripLead_eq_self hnl]
      simp only [collapseWs]
      rw [(collapse_cOut_eq (GTok.tch c :: ts2).length _ le_rfl hg).1, spell_tch]
    | tcm =>
      rw [stripLead_eq_self (noLeadWs_cOut_tcm ts2)]
      simp only [collapseWs]
      rw [(collapse_cOut_eq (GTok.tcm :: ts2).length _ le_rfl hg).1, spell_tcm]
    | tgt =>
      rw [cOut_tgt]
      rw [show stripLead (' ' :: '>' :: gtTail ts2) = '>' :: gtTail ts2 from by
        simp [stripLead, List.dropWhile, (by decide : isWs ' ' = true),
          (by decide : isWs '>' = false)]]
      simp only [collapseWs]
      rw [cwa_nonws _ _ _ (by decide),
        (collapse_cOut_eq ts2.length ts2 le_rfl (goodG_tail hg)).2.2
          (headOk_of_goodG_tgt hg),
        spell_tgt]

theorem collapse_trim_cOut {ts : List GTok} (hg : goodG ts = true)
    (hok : headOk ts = true) :
    collapseWs (jsTrim (cOut ts)) = stripTrail (spell ts) := by
  have hj : jsTrim (cOut ts) = stripTrail (stripLead (cOut ts)) := rfl
  rw [hj, collapse_stripTrail_comm, collapse_stripLead_cOut hg hok]

theorem lastOk_cons_of_ne_nil {t : GTok} {ts : List GTok} (h : ts ≠ []) :
    lastOk (t :: ts) = lastOk ts := by
  simp [lastOk, lastTok_cons_of_ne_nil h]

theorem lastOk_tail {t : GTok} {ts : List GTok} (h : lastOk (t :: ts) = true) :
    lastOk ts = true := by
  cases ts with
  | nil => decide
  | cons t2 ts2 =>
    rw [lastOk_cons_of_ne_nil (List.cons_ne_nil t2 ts2)] at h
    exact h

theorem pads_cons_of_ne_nil {ts : List GTok} (t : GTok) (h : ts ≠ []) :
    pads (t :: ts) = pads ts := by
  simp [pads, lastTok_cons_of_ne_nil h]

theorem pads_cons_ne_tcm {t : GTok} (h : ¬(t = GTok.tcm)) (ts : List GTok) :
    pads (t :: ts) = pads ts := by
  cases ts with
  | nil =>
    cases t with
    | tcm => exact absurd rfl h
    | tch c => simp [pads, lastTok]
    | tsp => simp [pads, lastTok]
    | tgt => simp [pads, lastTok]
  | cons t2 ts2 => exact pads_cons_of_ne_nil t (List.cons_ne_nil t2 ts2)

theorem cOutK_tcm_head (ts : List GTok) :
    ∃ X, cOutK (GTok.tcm :: ts) = ',' :: X := by
  induction ts with
  | nil => exact ⟨[' '], by rw [cOutK_tcm_nil]⟩
  | cons t ts2 ih =>
    cases t with
    | tsp =>
      rw [cOutK_tcm_tsp]
      exact ih
    | tch c => exact ⟨_, by rw [cOutK_tcm_tch]⟩
    | tcm => exact ⟨_, by rw [cOutK_tcm_tcm]⟩
    | tgt => exact ⟨_, by rw [cOutK_tcm_tgt]⟩

theorem gtToks_ws_gt (T : List Char) : gtToks (' ' :: '>' :: T) = gtToks ('>' :: T) := by
  rw [gtToks_cons, gtToks_cons, trySep_ws_cons _ (by decide),
    trySep_some_head _ (by decide)]

theorem gtToks_cOutK_eq : ∀ (n : Nat) (ts : List GTok), ts.length ≤ n →
    goodG ts = true → lastOk ts = true →
    (gtToks (cOutK ts) = cnf ts ++ pads ts) ∧
    (headOk ts = true →
      gtToks ('>' :: gtTailK ts) = GTok.tgt :: (cnf ts ++ pads ts)) := by
  intro n
  induction n with
  | zero =>
    intro ts hn _ _
    have hts : ts = [] := List.eq_nil_of_length_eq_zero (by omega)
    subst hts
    refine ⟨by rw [cOutK_nil, gtToks_nil, cnf_nil]; decide,
      fun _ => by rw [gtTailK_nil, cnf_nil]; decide⟩
  | succ n ih =>
    intro ts hn hg hlast
    have hNA : gtToks (cOutK ts) = cnf ts ++ pads ts := by
      cases ts with
      | nil =>
        rw [cOutK_nil, gtToks_nil, cnf_nil]
        decide
      | cons t ts2 =>
        have hg2 : goodG ts2 = true := goodG_tail hg
        have hl2 : lastOk ts2 = true := lastOk_tail hlast
        have hlen : ts2.length ≤ n := by
          simp only [List.length_cons] at hn
          omega
        cases t with
        | tch c =>
          have hh := hg
          rw [goodG_tch] at hh
          simp only [Bool.and_eq_true, Bool.not_eq_true',
            decide_eq_false_iff_not] at hh
          rw [cOutK_tch, gtToks_cons, trySep_none_head _ hh.1.1.1 hh.1.1.2]
          dsimp only
          rw [if_neg hh.1.2, if_neg (by rw [hh.1.1.1]; exact Bool.false_ne_true)]
          rw [(ih ts2 hlen hg2 hl2).1, cnf_tch, pads_cons_ne_tcm
            (by intro h2; exact GTok.noConfusion h2) ts2, List.cons_append]
        | tsp =>
          cases ts2 with
          | nil => exact Bool.noConfusion hlast
          | cons t2 ts3 =>
            have hlen3 : (t2 :: ts3).length ≤ n := by
              simp only [List.length_cons] at hn ⊢
              omega
            cases t2 with
            | tsp => exact Bool.noConfusion hg
            | tgt => exact Bool.noConfusion hg
            | tcm =>
              rw [cOutK_tsp_tcm, cnf_tsp_tcm,
                pads_cons_of_ne_nil _ (List.cons_ne_nil _ _)]
              exact (ih (GTok.tcm :: ts3) hlen3 hg2 hl2).1
            | tch c2 =>
              have hh := hg2
              rw [goodG_tch] at hh
              simp only [Bool.and_eq_true, Bool.not_eq_true',
                decide_eq_false_iff_not] at hh
              rw [cOutK_tsp_tch, cOutK_tch, gtToks_cons,
                trySep_ws_cons _ (by decide),
                trySep_none_head _ hh.1.1.1 hh.1.1.2]
              dsimp only
              rw [if_neg (by decide : ¬(' ' = ',')), if_pos (by decide : isWs ' ' = true)]
              rw [← cOutK_tch, (ih (GTok.tch c2 :: ts3) hlen3 hg2 hl2).1]
              rw [cnf_tsp_tch, pads_cons_of_ne_nil _ (List.cons_ne_nil _ _),
                List.cons_append]
        | tcm =>
          cases ts2 with
          | nil =>
            rw [cOutK_tcm_nil, cnf_tcm_nil]
            decide
          | cons t2 ts3 =>
            have hlen3 : (t2 :: ts3).length ≤ n := by
              simp only [List.length_cons] at hn ⊢
              omega
            cases t2 with
            | tsp =>
              cases ts3 with
              | nil => exact Bool.noConfusion hlast
              | cons t3 ts4 =>
                have h3 : (t3 :: ts4) ≠ [] := List.cons_ne_nil t3 ts4
                have hl3 : lastOk (GTok.tcm :: t3 :: ts4) = true := by
                  rw [lastOk_cons_of_ne_nil h3]
                  exact lastOk_tail hl2
                rw [cOutK_tcm_tsp, cnf_tcm_tsp,
                  (ih (GTok.tcm :: t3 :: ts4)
                    (by simp only [List.length_cons] at hn ⊢; omega)
                    (by rw [goodG_tcm]; exact goodG_tail hg2) hl3).1]
                rw [show pads (GTok.tcm :: GTok.tsp :: t3 :: ts4) = pads (t3 :: ts4)
                    from by
                      rw [pads_cons_of_ne_nil _ (List.cons_ne_nil _ _),
                        pads_cons_of_ne_nil _ h3],
                  show pads (GTok.tcm :: t3 :: ts4) = pads (t3 :: ts4) from
                    pads_cons_of_ne_nil _ h3]
            | tch c2 =>
              have hh := hg2
              rw [goodG_tch] at hh
              simp only [Bool.and_eq_true, Bool.not_eq_true',
                decide_eq_false_iff_not] at hh
              rw [cOutK_tcm_tch, cOutK_tch, gtToks_cons,
                trySep_none_head _ (by decide) (by decide)]
              dsimp only
              rw [if_pos rfl]
              rw [gtToks_cons, trySep_ws_cons _ (by decide),
                trySep_none_head _ hh.1.1.1 hh.1.1.2]
              dsimp only
              rw [if_neg (by decide : ¬(' ' = ',')), if_pos (by decide : isWs ' ' = true)]
              rw [← cOutK_tch, (ih (GTok.tch c2 :: ts3) hlen3 hg2 hl2).1]
              rw [cnf_tcm_tch, pads_cons_of_ne_nil _ (List.cons_ne_nil _ _),
                List.cons_append, List.cons_append]
            | tcm =>
              obtain ⟨X, hX⟩ := cOutK_tcm_head ts3
              rw [cOutK_tcm_tcm, hX, gtToks_cons,
                trySep_none_head _ (by decide) (by decide)]
              dsimp only
              rw [if_pos rfl]
              rw [gtToks_cons, trySep_ws_cons _ (by decide),
                trySep_none_head _ (by decide) (by decide)]
              dsimp only
              rw [if_neg (by decide : ¬(' ' = ',')), if_pos (by decide : isWs ' ' = true)]
              rw [← hX, (ih (GTok.tcm :: ts3) hlen3 hg2 hl2).1]
              rw [cnf_tcm_tcm, pads_cons_of_ne_nil _ (List.cons_ne_nil _ _),
                List.cons_append, List.cons_append]
            | tgt =>
              rw [cOutK_tcm_tgt, gtToks_cons,
                trySep_none_head _ (by decide) (by decide)]
              dsimp only
              rw [if_pos rfl]
              rw [gtToks_ws_gt,
                (ih ts3 (by simp only [List.length_cons] at hn ⊢; omega)
                  (goodG_tail hg2) (lastOk_tail hl2)).2 (headOk_of_goodG_tgt hg2)]
              rw [cnf_tcm_tgt, cnf_tgt,
                pads_cons_of_ne_nil _ (List.cons_ne_nil _ _),
                pads_cons_ne_tcm (by intro h2; exact GTok.noConfusion h2) ts3,
                List.cons_append, List.cons_append]
        | tgt =>
          rw [cOutK_tgt, gtToks_ws_gt,
            (ih ts2 hlen hg2 hl2).2 (headOk_of_goodG_tgt hg)]
          rw [cnf_tgt, pads_cons_ne_tcm (by intro h2; exact GTok.noConfusion h2) ts2,
            List.cons_append]
    have hNB : headOk ts = true →
        gtToks ('>' :: gtTailK ts) = GTok.tgt :: (cnf ts ++ pads ts) := by
      intro hok
      cases ts with
      | nil =>
        rw [gtTailK_nil, cnf_nil]
        decide
      | cons t ts2 =>
        have hg2 : goodG ts2 = true := goodG_tail hg
        have hl2 : lastOk ts2 = true := lastOk_tail hlast
        have hlen : ts2.length ≤ n := by
          simp only [List.length_cons] at hn
          omega
        cases t with
        | tsp => exact Bool.noConfusion hok
        | tcm =>
          obtain ⟨X, hX⟩ := cOutK_tcm_head ts2
          rw [gtTailK_tcm, gtToks_cons, trySep_some_head _ (by decide)]
          dsimp only
          rw [hX, show ((',' :: X).dropWhile isWs) = ',' :: X from by
            simp [List.dropWhile, (by decide : isWs ',' = false)]]
          rw [← hX, hNA]
        | tch c =>
          have hh := hg
          rw [goodG_tch] at hh
          simp only [Bool.and_eq_true, Bool.not_eq_true',
            decide_eq_false_iff_not] at hh
          rw [gtTailK_tch, gtToks_cons, trySep_some_head _ (by decide)]
          dsimp only
          rw [show ((' ' :: cOutK (GTok.tch c :: ts2)).dropWhile isWs) =
              cOutK (GTok.tch c :: ts2) from by
            rw [cOutK_tch]
            simp [List.dropWhile, (by decide : isWs ' ' = true), hh.1.1.1]]
          rw [hNA]
        | tgt =>
          rw [gtTailK_tgt, gtToks_cons, trySep_some_head _ (by decide)]
          dsimp only
          rw [show ((' ' :: '>' :: gtTailK ts2).dropWhile isWs) =
              '>' :: gtTailK ts2 from by
            simp [List.dropWhile, (by decide : isWs ' ' = true),
              (by decide : isWs '>' = false)]]
          rw [(ih ts2 hlen hg2 hl2).2 (headOk_of_goodG_tgt hg)]
          rw [cnf_tgt, pads_cons_ne_tcm (by intro h2; exact GTok.noConfusion h2) ts2,
            List.cons_append]
    exact ⟨hNA, hNB⟩

theorem gtToks_spell {ts : List GTok} (hg : goodG ts = true) (hok : headOk ts = true)
    (hl : lastOk ts = true) : gtToks (spell ts) = cnf ts ++ pads ts := by
  cases ts with
  | nil =>
    rw [spell_nil, cOutK_nil, gtToks_nil, cnf_nil]
    decide
  | cons t ts2 =>
    cases t with
    | tsp => exact Bool.noConfusion hok
    | tch c =>
      rw [spell_tch]
      exact (gtToks_cOutK_eq _ _ le_rfl hg hl).1
    | tcm =>
      rw [spell_tcm]
      exact (gtToks_cOutK_eq _ _ le_rfl hg hl).1
    | tgt =>
      rw [spell_tgt,
        (gtToks_cOutK_eq ts2.length ts2 le_rfl (goodG_tail hg)
          (lastOk_tail hl)).2 (headOk_of_goodG_tgt hg),
        cnf_tgt, pads_cons_ne_tcm (by intro h2; exact GTok.noConfusion h2) ts2,
        List.cons_append]

theorem stripTrail_snoc {z : List Char} {c : Char} (hc : isWs c = false) :
    stripTrail (z ++ [c]) = z ++ [c] := by
  simp only [stripTrail, List.reverse_append, List.reverse_cons, List.reverse_nil,
    List.nil_append, List.singleton_append]
  rw [show ((c :: z.reverse).dropWhile isWs) = c :: z.reverse from by
    simp [List.dropWhile, hc]]
  simp

theorem stripTrail_snoc2 {z : List Char} {c : Char} (hc : isWs c = false) :
    stripTrail (z ++ [c, ' ']) = z ++ [c] := by
  simp only [stripTrail, List.reverse_append]
  rw [show (([c, ' '].reverse : List Char) ++ z.reverse) = ' ' :: c :: z.reverse
    from rfl]
  rw [show ((' ' :: c :: z.reverse).dropWhile isWs) = c :: z.reverse from by
    simp [List.dropWhile, hc, (by decide : isWs ' ' = true)]]
  simp

theorem lastTok_ne_none : ∀ (t : GTok) (ts : List GTok),
    ¬(lastTok (t :: ts) = none) := by
  intro t ts
  induction ts generalizing t with
  | nil => simp [lastTok]
  | cons t2 ts2 ih =>
    rw [lastTok_cons_of_ne_nil (List.cons_ne_nil t2 ts2)]
    exact ih t2

theorem goodG_lastTok_tch : ∀ {ts : List GTok} {c : Char}, goodG ts = true →
    lastTok ts = some (GTok.tch c) → isWs c = false := by
  intro ts
  induction ts with
  | nil =>
    intro c _ h
    exact Option.noConfusion h
  | cons t ts2 ih =>
    intro c hg hl
    cases ts2 with
    | nil =>
      simp only [lastTok, Option.some.injEq] at hl
      subst hl
      rw [goodG_tch] at hg
      simp only [Bool.and_eq_true, Bool.not_eq_true'] at hg
      exact hg.1.1.1
    | cons t2 ts3 =>
      rw [lastTok_cons_of_ne_nil (List.cons_ne_nil t2 ts3)] at hl
      exact ih (goodG_tail hg) hl

theorem trailK : ∀ (n : Nat) (ts : List GTok), ts.length ≤ n →
    (∃ y, cOutK ts = y ++ trailShape (lastTok ts)) ∧
    (ts ≠ [] → ∃ y, gtTailK ts = y ++ trailShape (lastTok ts)) := by
  intro n
  induction n with
  | zero =>
    intro ts hn
    have hts : ts = [] := List.eq_nil_of_length_eq_zero (by omega)
    subst hts
    exact ⟨⟨[], by rw [cOutK_nil]; rfl⟩, fun h => absurd rfl h⟩
  | succ n ih =>
    intro ts hn
    have hCK : ∃ y, cOutK ts = y ++ trailShape (lastTok ts) := by
      cases ts with
      | nil => exact ⟨[], by rw [cOutK_nil]; rfl⟩
      | cons t ts2 =>
        cases ts2 with
        | nil =>
          cases t with
          | tch c => exact ⟨[], by rw [cOutK_tch, cOutK_nil]; rfl⟩
          | tsp => exact ⟨[], by rw [cOutK_tsp_nil]; rfl⟩
          | tcm => exact ⟨[], by rw [cOutK_tcm_nil]; rfl⟩
          | tgt => exact ⟨[' '], by rw [cOutK_tgt, gtTailK_nil]; rfl⟩
        | cons t2 ts3 =>
          have hlen2 : (t2 :: ts3).length ≤ n := by
            simp only [List.length_cons] at hn ⊢
            omega
          cases t with
          | tch c =>
            obtain ⟨y, hy⟩ := (ih (t2 :: ts3) hlen2).1
            exact ⟨c :: y, by
              rw [cOutK_tch, hy, lastTok_cons_of_ne_nil (List.cons_ne_nil t2 ts3),
                List.cons_append]⟩
          | tsp =>
            cases t2 with
            | tcm =>
              obtain ⟨y, hy⟩ := (ih (GTok.tcm :: ts3) hlen2).1
              exact ⟨y, by
                rw [cOutK_tsp_tcm, hy,
                  lastTok_cons_of_ne_nil (List.cons_ne_nil GTok.tcm ts3)]⟩
            | tch c2 =>
              obtain ⟨y, hy⟩ := (ih (GTok.tch c2 :: ts3) hlen2).1
              exact ⟨' ' :: y, by
                rw [cOutK_tsp_tch, hy,
                  lastTok_cons_of_ne_nil (List.cons_ne_nil _ ts3), List.cons_append]⟩
            | tsp =>
              obtain ⟨y, hy⟩ := (ih (GTok.tsp :: ts3) hlen2).1
              exact ⟨' ' :: y, by
                rw [cOutK_tsp_tsp, hy,
                  lastTok_cons_of_ne_nil (List.cons_ne_nil _ ts3), List.cons_append]⟩
            | tgt =>
              obtain ⟨y, hy⟩ := (ih (GTok.tgt :: ts3) hlen2).1
              exact ⟨' ' :: y, by
                rw [cOutK_tsp_tgt, hy,
                  lastTok_cons_of_ne_nil (List.cons_ne_nil _ ts3), List.cons_append]⟩
          | tcm =>
            cases t2 with
            | tsp =>
              cases ts3 with
              | nil => exact ⟨[','], by rw [cOutK_tcm_tsp, cOutK_tcm_nil]; rfl⟩
              | cons t3 ts4 =>
                obtain ⟨y, hy⟩ := (ih (GTok.tcm :: t3 :: ts4)
                  (by simp only [List.length_cons] at hn ⊢; omega)).1
                rw [lastTok_cons_of_ne_nil (List.cons_ne_nil t3 ts4)] at hy
                exact ⟨y, by
                  rw [cOutK_tcm_tsp, hy,
                    lastTok_cons_of_ne_nil (List.cons_ne_nil GTok.tsp (t3 :: ts4)),
                    lastTok_cons_of_ne_nil (List.cons_ne_nil t3 ts4)]⟩
            | tch c2 =>
              obtain ⟨y, hy⟩ := (ih (GTok.tch c2 :: ts3) hlen2).1
              exact ⟨',' :: ' ' :: y, by
                rw [cOutK_tcm_tch, hy,
                  lastTok_cons_of_ne_nil (List.cons_ne_nil _ ts3), List.cons_append,
                  List.cons_append]⟩
            | tcm =>
              obtain ⟨y, hy⟩ := (ih (GTok.tcm :: ts3) hlen2).1
              exact ⟨',' :: ' ' :: y, by
                rw [cOutK_tcm_tcm, hy,
                  lastTok_cons_of_ne_nil (List.cons_ne_nil _ ts3), List.cons_append,
                  List.cons_append]⟩
            | tgt =>
              cases ts3 with
              | nil => exact ⟨[',', ' '], by rw [cOutK_tcm_tgt, gtTailK_nil]; rfl⟩
              | cons t3 ts4 =>
                obtain ⟨y, hy⟩ := (ih (t3 :: ts4)
                  (by simp only [List.length_cons] at hn ⊢; omega)).2
                  (List.cons_ne_nil t3 ts4)
                exact ⟨',' :: ' ' :: '>' :: y, by
                  rw [cOutK_tcm_tgt, hy,
                    lastTok_cons_of_ne_nil (List.cons_ne_nil GTok.tgt (t3 :: ts4)),
                    lastTok_cons_of_ne_nil (List.cons_ne_nil t3 ts4), List.cons_append,
                    List.cons_append, List.cons_append]⟩
          | tgt =>
            obtain ⟨y, hy⟩ := (ih (t2 :: ts3) hlen2).2 (List.cons_ne_nil t2 ts3)
            exact ⟨' ' :: '>' :: y, by
              rw [cOutK_tgt, hy, lastTok_cons_of_ne_nil (List.cons_ne_nil t2 ts3),
                List.cons_append, List.cons_append]⟩
    have hGK : ts ≠ [] → ∃ y, gtTailK ts = y ++ trailShape (lastTok ts) := by
      intro hne
      cases ts with
      | nil => exact absurd rfl hne
      | cons t ts2 =>
        cases t with
        | tcm =>
          obtain ⟨y, hy⟩ := hCK
          exact ⟨y, by rw [gtTailK_tcm]; exact hy⟩
        | tch c =>
          obtain ⟨y, hy⟩ := hCK
          exact ⟨' ' :: y, by rw [gtTailK_tch, hy, List.cons_append]⟩
        | tsp =>
          obtain ⟨y, hy⟩ := hCK
          exact ⟨' ' :: y, by
            rw [gtTailK_tsp]
            rw [show cOutK (GTok.tsp :: ts2) = y ++ trailShape
              (lastTok (GTok.tsp :: ts2)) from hy, List.cons_append]⟩
        | tgt =>
          cases ts2 with
          | nil => exact ⟨[' '], by rw [gtTailK_tgt, gtTailK_nil]; rfl⟩
          | cons t2 ts3 =>
            obtain ⟨y, hy⟩ := (ih (t2 :: ts3)
              (by simp only [List.length_cons] at hn ⊢; omega)).2
              (List.cons_ne_nil t2 ts3)
            exact ⟨' ' :: '>' :: y, by
              rw [gtTailK_tgt, hy, lastTok_cons_of_ne_nil (List.cons_ne_nil t2 ts3),
                List.cons_append, List.cons_append]⟩
    exact ⟨hCK, hGK⟩

theorem spell_trail : ∀ ts : List GTok,
    ∃ y, spell ts = y ++ trailShape (lastTok ts) := by
  intro ts
  cases ts with
  | nil => exact ⟨[], by rw [spell_nil, cOutK_nil]; rfl⟩
  | cons t ts2 =>
    cases t with
    | tgt =>
      cases ts2 with
      | nil => exact ⟨[], by rw [spell_tgt, gtTailK_nil]; rfl⟩
      | cons t2 ts3 =>
        obtain ⟨y, hy⟩ := (trailK (t2 :: ts3).length (t2 :: ts3) le_rfl).2
          (List.cons_ne_nil t2 ts3)
        exact ⟨'>' :: y, by
          rw [spell_tgt, hy, lastTok_cons_of_ne_nil (List.cons_ne_nil t2 ts3),
            List.cons_append]⟩
    | tch c =>
      obtain ⟨y, hy⟩ := (trailK (GTok.tch c :: ts2).length _ le_rfl).1
      exact ⟨y, by rw [spell_tch]; exact hy⟩
    | tcm =>
      obtain ⟨y, hy⟩ := (trailK (GTok.tcm :: ts2).length _ le_rfl).1
      exact ⟨y, by rw [spell_tcm]; exact hy⟩
    | tsp =>
      obtain ⟨y, hy⟩ := (trailK (GTok.tsp :: ts2).length _ le_rfl).1
      exact ⟨y, by rw [spell_tsp]; exact hy⟩

theorem dropWhile_append_not_nil {p : Char → Bool} :
    ∀ {a : List Char} {e : Char} {r : List Char} (b : List Char),
      a.dropWhile p = e :: r → (a ++ b).dropWhile p = (e :: r) ++ b := by
  intro a
  induction a with
  | nil =>
    intro e r b h
    exact List.noConfusion h
  | cons x a' ih =>
    intro e r b h
    by_cases hx : p x = true
    · simp only [List.dropWhile, hx] at h
      simp only [List.cons_append, List.dropWhile, hx]
      exact ih b h
    · simp only [List.dropWhile, hx] at h
      simp only [List.cons_append, List.dropWhile, hx]
      injection h with h1 h2
      subst h1
      subst h2
      rfl

theorem dropWhile_nil_all {l : List Char} (h : ¬(l.all isWs = true)) :
    ∃ e r, l.dropWhile isWs = e :: r := by
  induction l with
  | nil => exact absurd rfl h
  | cons x l' ih =>
    by_cases hx : isWs x = true
    · simp only [List.dropWhile, hx]
      apply ih
      intro hall
      exact h (by simp [List.all_cons, hx, hall])
    · exact ⟨x, l', by simp [List.dropWhile, hx]⟩

theorem trySep_snoc : ∀ (y : List Char) (c : Char), isWs c = false →
    (c = '>' ∧ y.all isWs = true ∧ trySep '>' (y ++ [c, ' ']) = some [] ∧
      trySep '>' (y ++ [c]) = some []) ∨
    (∃ w, w.length < y.length ∧ trySep '>' (y ++ [c, ' ']) = some (w ++ [c, ' ']) ∧
      trySep '>' (y ++ [c]) = some (w ++ [c])) ∨
    (trySep '>' (y ++ [c, ' ']) = none ∧ trySep '>' (y ++ [c]) = none) := by
  intro y
  induction y with
  | nil =>
    intro c hc
    by_cases hgt : c = '>'
    · subst hgt
      exact Or.inl ⟨rfl, rfl, by decide, by decide⟩
    · exact Or.inr (Or.inr ⟨by rw [List.nil_append]; exact trySep_none_head _ hc hgt,
        by rw [List.nil_append]; exact trySep_none_head _ hc hgt⟩)
  | cons d y' ih =>
    intro c hc
    by_cases hd : isWs d = true
    · rcases ih c hc with ⟨h1, h2, h3, h4⟩ | ⟨w, hw, h3, h4⟩ | ⟨h3, h4⟩
      · exact Or.inl ⟨h1, by simp [List.all_cons, hd, h2],
          by rw [List.cons_append, trySep_ws_cons _ hd]; exact h3,
          by rw [List.cons_append, trySep_ws_cons _ hd]; exact h4⟩
      · exact Or.inr (Or.inl ⟨w, by simp only [List.length_cons]; omega,
          by rw [List.cons_append, trySep_ws_cons _ hd]; exact h3,
          by rw [List.cons_append, trySep_ws_cons _ hd]; exact h4⟩)
      · exact Or.inr (Or.inr
          ⟨by rw [List.cons_append, trySep_ws_cons _ hd]; exact h3,
           by rw [List.cons_append, trySep_ws_cons _ hd]; exact h4⟩)
    · have hdf : isWs d = false := by
        simp only [Bool.not_eq_true] at hd
        exact hd
      by_cases hdgt : d = '>'
      · subst hdgt
        refine Or.inr (Or.inl ?_)
        by_cases hall : y'.all isWs = true
        · refine ⟨[], by simp, ?_, ?_⟩
          · rw [List.cons_append, trySep_some_head _ (by decide),
              dropWhile_append_all _ hall,
              show (([c, ' '] : List Char).dropWhile isWs) = [c, ' '] from by
                simp [List.dropWhile, hc]]
            rfl
          · rw [List.cons_append, trySep_some_head _ (by decide),
              dropWhile_append_all _ hall,
              show (([c] : List Char).dropWhile isWs) = [c] from by
                simp [List.dropWhile, hc]]
            rfl
        · obtain ⟨e, r, her⟩ := dropWhile_nil_all hall
          have hlen : (e :: r).length ≤ y'.length := by
            have hh : (y'.dropWhile isWs).length ≤ y'.length :=
              (List.dropWhile_sublist isWs).length_le
            rw [her] at hh
            exact hh
          refine ⟨e :: r, by simp only [List.length_cons] at hlen ⊢; omega, ?_, ?_⟩
          · rw [List.cons_append, trySep_some_head _ (by decide),
              dropWhile_append_not_nil _ her]
          · rw [List.cons_append, trySep_some_head _ (by decide),
              dropWhile_append_not_nil _ her]
      · exact Or.inr (Or.inr
          ⟨by rw [List.cons_append]; exact trySep_none_head _ hdf hdgt,
           by rw [List.cons_append]; exact trySep_none_head _ hdf hdgt⟩)

theorem gtToks_snoc_sp : ∀ (n : Nat) (y : List Char) (c : Char), y.length ≤ n →
    isWs c = false →
    gtToks (y ++ [c, ' ']) =
      gtToks (y ++ [c]) ++ (if c = '>' then [] else [GTok.tsp]) := by
  intro n
  induction n with
  | zero =>
    intro y c hn hc
    have hy : y = [] := List.eq_nil_of_length_eq_zero (by omega)
    subst hy
    simp only [List.nil_append]
    by_cases hgt : c = '>'
    · subst hgt
      decide
    · rw [gtToks_cons c [' '], gtToks_cons c [], trySep_none_head _ hc hgt,
        trySep_none_head _ hc hgt]
      dsimp only
      rw [show gtToks [' '] = [GTok.tsp] from by decide, gtToks_nil, if_neg hgt]
      simp
  | succ n ih =>
    intro y c hn hc
    cases y with
    | nil =>
      simp only [List.nil_append]
      by_cases hgt : c = '>'
      · subst hgt
        decide
      · rw [gtToks_cons c [' '], gtToks_cons c [], trySep_none_head _ hc hgt,
          trySep_none_head _ hc hgt]
        dsimp only
        rw [show gtToks [' '] = [GTok.tsp] from by decide, gtToks_nil, if_neg hgt]
        simp
    | cons d y' =>
      rcases trySep_snoc (d :: y') c hc with ⟨hcgt, _, h3, h4⟩ | ⟨w, hw, h3, h4⟩ |
        ⟨h3, h4⟩
      · simp only [List.cons_append] at h3 h4 ⊢
        rw [gtToks_cons d (y' ++ [c, ' ']), gtToks_cons d (y' ++ [c]), h3, h4]
        dsimp only
        rw [gtToks_nil, if_pos hcgt]
        simp
      · simp only [List.cons_append] at h3 h4 ⊢
        rw [gtToks_cons d (y' ++ [c, ' ']), gtToks_cons d (y' ++ [c]), h3, h4]
        dsimp only
        rw [ih w c (by simp only [List.length_cons] at hn hw; omega) hc,
          List.cons_append]
      · simp only [List.cons_append] at h3 h4 ⊢
        rw [gtToks_cons d (y' ++ [c, ' ']), gtToks_cons d (y' ++ [c]), h3, h4]
        dsimp only
        rw [ih y' c (by simp only [List.length_cons] at hn; omega) hc,
          List.cons_append]

theorem gtToks_stripTrail_spell {ts : List GTok} (hg : goodG ts = true)
    (hok : headOk ts = true) (hl : lastOk ts = true) :
    gtToks (stripTrail (spell ts)) = cnf ts := by
  obtain ⟨y, hy⟩ := spell_trail ts
  have hM := gtToks_spell hg hok hl
  cases hlt : lastTok ts with
  | none =>
    have hts : ts = [] := by
      cases ts with
      | nil => rfl
      | cons t ts2 => exact absurd hlt (lastTok_ne_none t ts2)
    subst hts
    rw [show spell [] = [] from by rw [spell_nil, cOutK_nil], cnf_nil]
    rfl
  | some t =>
    cases t with
    | tsp =>
      simp [lastOk, hlt] at hl
    | tch c =>
      have hcz : isWs c = false := goodG_lastTok_tch hg hlt
      rw [hlt] at hy
      simp only [trailShape] at hy
      rw [hy, stripTrail_snoc hcz, ← hy, hM,
        show pads ts = [] from by simp [pads, hlt]]
      simp
    | tgt =>
      rw [hlt] at hy
      simp only [trailShape] at hy
      rw [hy, stripTrail_snoc2 (by decide)]
      have hS := gtToks_snoc_sp y.length y '>' le_rfl (by decide)
      rw [if_pos rfl] at hS
      simp only [List.append_nil] at hS
      rw [← hS, ← hy, hM, show pads ts = [] from by simp [pads, hlt]]
      simp
    | tcm =>
      rw [hlt] at hy
      simp only [trailShape] at hy
      rw [hy, stripTrail_snoc2 (by decide)]
      have hS := gtToks_snoc_sp y.length y ',' le_rfl (by decide)
      rw [if_neg (by decide)] at hS
      have hM2 : gtToks (y ++ [',', ' ']) = cnf ts ++ [GTok.tsp] := by
        rw [← hy, hM, show pads ts = [GTok.tsp] from by simp [pads, hlt]]
      rw [hS] at hM2
      have hdl := congrArg List.dropLast hM2
      simpa [List.dropLast_concat] using hdl

theorem cnfCmHead (ts : List GTok) : ∃ X, cnf (GTok.tcm :: ts) = GTok.tcm :: X := by
  induction ts with
  | nil => exact ⟨[], by rw [cnf_tcm_nil]⟩
  | cons t ts2 ih =>
    cases t with
    | tsp =>
      rw [cnf_tcm_tsp]
      exact ih
    | tch c => exact ⟨_, by rw [cnf_tcm_tch]⟩
    | tcm => exact ⟨_, by rw [cnf_tcm_tcm]⟩
    | tgt => exact ⟨_, by rw [cnf_tcm_tgt]⟩

theorem cOut_cnf_eq : ∀ (n : Nat) (ts : List GTok), ts.length ≤ n →
    goodG ts = true →
    (cOut (cnf ts) = cOut ts) ∧
    (headOk ts = true → gtTail (cnf ts) = gtTail ts) := by
  intro n
  induction n with
  | zero =>
    intro ts hn _
    have hts : ts = [] := List.eq_nil_of_length_eq_zero (by omega)
    subst hts
    exact ⟨by rw [cnf_nil], fun _ => by rw [cnf_nil]⟩
  | succ n ih =>
    intro ts hn hg
    have hH2 : cOut (cnf ts) = cOut ts := by
      cases ts with
      | nil => rw [cnf_nil]
      | cons t ts2 =>
        have hg2 : goodG ts2 = true := goodG_tail hg
        have hlen : ts2.length ≤ n := by
          simp only [List.length_cons] at hn
          omega
        cases t with
        | tch c =>
          rw [cnf_tch, cOut_tch, (ih ts2 hlen hg2).1, cOut_tch]
        | tsp =>
          cases ts2 with
          | nil => rw [cnf_tsp_nil]
          | cons t2 ts3 =>
            have hlen3 : (t2 :: ts3).length ≤ n := by
              simp only [List.length_cons] at hn ⊢
              omega
            cases t2 with
            | tsp => exact Bool.noConfusion hg
            | tgt => exact Bool.noConfusion hg
            | tcm =>
              rw [cnf_tsp_tcm, (ih (GTok.tcm :: ts3) hlen3 hg2).1, cOut_tsp_tcm]
            | tch c2 =>
              rw [cnf_tsp_tch, cnf_tch, cOut_tsp_tch, ← cnf_tch,
                (ih (GTok.tch c2 :: ts3) hlen3 hg2).1, cOut_tsp_tch]
        | tgt =>
          rw [cnf_tgt, cOut_tgt, (ih ts2 hlen hg2).2 (headOk_of_goodG_tgt hg),
            cOut_tgt]
        | tcm =>
          cases ts2 with
          | nil => rw [cnf_tcm_nil]
          | cons t2 ts3 =>
            have hlen3 : (t2 :: ts3).length ≤ n := by
              simp only [List.length_cons] at hn ⊢
              omega
            cases t2 with
            | tsp =>
              have hg3 : goodG (GTok.tcm :: ts3) = true := by
                rw [goodG_tcm]
                exact goodG_tail hg2
              have hlen4 : (GTok.tcm :: ts3).length ≤ n := by
                simp only [List.length_cons] at hn ⊢
                omega
              rw [cnf_tcm_tsp, (ih (GTok.tcm :: ts3) hlen4 hg3).1, cOut_tcm_tsp]
            | tch c2 =>
              rw [cnf_tcm_tch, cnf_tch, cOut_tcm_tsp, cOut_tcm_tch, ← cnf_tch,
                (ih (GTok.tch c2 :: ts3) hlen3 hg2).1, cOut_tcm_tch]
            | tcm =>
              obtain ⟨X, hX⟩ := cnfCmHead ts3
              rw [cnf_tcm_tcm, cOut_tcm_tsp, hX, cOut_tcm_tcm, ← hX,
                (ih (GTok.tcm :: ts3) hlen3 hg2).1, cOut_tcm_tcm]
            | tgt =>
              rw [cnf_tcm_tgt, cnf_tgt, cOut_tcm_tgt,
                (ih ts3 (by simp only [List.length_cons] at hn ⊢; omega)
                  (goodG_tail hg2)).2 (headOk_of_goodG_tgt hg2),
                cOut_tcm_tgt]
    have hH2b : headOk ts = true → gtTail (cnf ts) = gtTail ts := by
      intro hok
      cases ts with
      | nil => rw [cnf_nil]
      | cons t ts2 =>
        cases t with
        | tsp => exact Bool.noConfusion hok
        | tcm =>
          obtain ⟨X, hX⟩ := cnfCmHead ts2
          rw [hX, gtTail_tcm, ← hX, hH2, gtTail_tcm]
        | tch c =>
          rw [cnf_tch, gtTail_tch, ← cnf_tch, hH2, gtTail_tch]
        | tgt =>
          rw [cnf_tgt, gtTail_tgt, ← cnf_tgt, hH2, gtTail_tgt]
    exact ⟨hH2, hH2b⟩

theorem normalizeL_eq_cOut (l : List Char) :
    normalizeSelectorL l = cOut (gtToks (collapseWs (jsTrim l))) := by
  have hso : spaceOnly (collapseWs (jsTrim l)) = true :=
    spaceOnly_collapseAux (jsTrim l) false
  have hnd : noDouble (collapseWs (jsTrim l)) = true :=
    noDouble_collapseAux (jsTrim l) false
  have hgood : goodG (gtToks (collapseWs (jsTrim l))) = true :=
    goodG_gtToks (collapseWs (jsTrim l)).length _ le_rfl hso hnd
  show sepRepl ',' [',', ' '] (sepRepl '>' [' ', '>', ' '] (collapseWs (jsTrim l))) = _
  rw [gtRepl_eq_gOut (collapseWs (jsTrim l)).length _ le_rfl hso,
    (commaRepl_eq (gtToks (collapseWs (jsTrim l))).length _ le_rfl hgood).1]

theorem normalizeL_idem (l : List Char) :
    normalizeSelectorL (normalizeSelectorL l) = normalizeSelectorL l := by
  have hso : spaceOnly (collapseWs (jsTrim l)) = true :=
    spaceOnly_collapseAux (jsTrim l) false
  have hnd : noDouble (collapseWs (jsTrim l)) = true :=
    noDouble_collapseAux (jsTrim l) false
  have hg : goodG (gtToks (collapseWs (jsTrim l))) = true :=
    goodG_gtToks (collapseWs (jsTrim l)).length _ le_rfl hso hnd
  have hok : headOk (gtToks (collapseWs (jsTrim l))) = true :=
    headOk_gtToks (noLeadWs_collapse (noLeadWs_jsTrim l))
  have hl : lastOk (gtToks (collapseWs (jsTrim l))) = true :=
    lastOk_gtToks (collapseWs (jsTrim l)).length _ le_rfl
      (noTrailWs_collapse (noTrailWs_jsTrim l))
  rw [normalizeL_eq_cOut l,
    normalizeL_eq_cOut (cOut (gtToks (collapseWs (jsTrim l)))),
    collapse_trim_cOut hg hok,
    gtToks_stripTrail_spell hg hok hl,
    (cOut_cnf_eq (gtToks (collapseWs (jsTrim l))).length _ le_rfl hg).1]

/-- C8: Selector normalization is idempotent: for every selector string `s`,
`normalizeSelector (normalizeSelector s) = normalizeSelector s`, where
`normalizeSelector` trims outer whitespace, collapses internal whitespace runs
to single spaces, and normalizes spacing around the child combinator and after
commas. -/
theorem claim_C8 (s : String) :
    normalizeSelector (normalizeSelector s) = normalizeSelector s :=
  congrArg String.mk (normalizeL_idem s.data)

end VisualInspector
